import Mathlib

/-!
Verification of the path-search repository (prioritymap.py, algorithms.py,
ui.py) against its natural-language specification.

Modelling conventions:
* Python floats are modelled by exact rationals `ℚ`; the value
  `float("inf")` that the algorithms use as a default cost is modelled by
  `⊤ : WithTop ℚ`.
* Python's `heapq` list is modelled by a sorted list of keys whose head is
  the minimum; `heappush` is ordered insertion and `heappop` takes the head.
* Python `set`s are modelled by duplicate-free lists: `set.add` appends when
  absent, `set.pop()` removes the head, and `set(xs)` is first-occurrence
  deduplication.  Tie-breaking among equal-priority points is unspecified in
  the source, so this fixes one concrete admissible order.
* Python `dict`s are association lists; assignment replaces the first
  binding, `defaultdict(lambda: float("inf"))` reads default to `⊤`.
* Exceptions (`KeyError`, `IndexError`, explicit `raise`) are modelled with
  `Except String`.
* Loops without a structural termination measure take an explicit fuel
  argument; running out of fuel is reported distinctly from the source's
  own return values.
-/

/-! ## Association-list dictionary helpers (Python `dict` / `defaultdict`) -/

/-- Lookup in an association list: Python `d[k]` returning `none` when the
key is missing. -/
def alist.lookup {κ α : Type} [DecidableEq κ] (l : List (κ × α)) (k : κ) :
    Option α :=
  match l with
  | [] => none
  | (k', v) :: rest => if k = k' then some v else alist.lookup rest k

/-- Assignment `d[k] = v`: replaces the first binding of `k`, or appends a
new binding (Python dicts keep one binding per key). -/
def alist.set {κ α : Type} [DecidableEq κ] (l : List (κ × α)) (k : κ) (v : α) :
    List (κ × α) :=
  match l with
  | [] => [(k, v)]
  | (k', v') :: rest =>
      if k = k' then (k, v) :: rest else (k', v') :: alist.set rest k v

/-- Deletion `d.pop(k)`: removes the first binding of `k`. -/
def alist.erase {κ α : Type} [DecidableEq κ] (l : List (κ × α)) (k : κ) :
    List (κ × α) :=
  match l with
  | [] => []
  | (k', v') :: rest =>
      if k = k' then rest else (k', v') :: alist.erase rest k

/-- Membership `k in d`. -/
def alist.mem {κ α : Type} [DecidableEq κ] (l : List (κ × α)) (k : κ) : Bool :=
  (alist.lookup l k).isSome

/-- Read with default `⊤`, the behaviour of
`defaultdict(lambda: float("inf"))`.  The cost type `K` is generic: the
source is duck-typed over numbers, and every claim-relevant behaviour only
uses ordered ring operations. -/
def alist.findInf {α K : Type} [DecidableEq α] (l : List (α × WithTop K))
    (k : α) : WithTop K :=
  match alist.lookup l k with
  | none => ⊤
  | some v => v

/-! ## Python-set-as-list helpers -/

/-- Python `s.add(x)` on a set modelled as a duplicate-free list. -/
def pset.add {α : Type} [DecidableEq α] (s : List α) (x : α) : List α :=
  if x ∈ s then s else s ++ [x]

/-- Python `set(xs)`: first-occurrence deduplication of an iterable. -/
def pset.ofList {α : Type} [DecidableEq α] : List α → List α
  | [] => []
  | x :: rest =>
      let tail := pset.ofList rest
      if x ∈ tail then tail else x :: tail

/-- First-occurrence deduplication that keeps the first copy (used where the
iteration order of `set(xs)` matters for the model's determinization). -/
def pset.dedup {α : Type} [DecidableEq α] : List α → List α
  | [] => []
  | x :: rest =>
      if x ∈ rest then
        match pset.dedup rest with
        | tail => tail
      else x :: pset.dedup rest

/-! ## prioritymap (src/prioritymap.py)

The class keeps a `heapq` list of keys (`__heap`) and a dict from key to
value (`__dict`).  `__setitem__` always pushes the key on the heap and then
assigns the dict entry; `min` reads `heap[0]` and `dict[heap[0]]`; `pop`
pops the heap and then reads and removes the dict entry, raising `KeyError`
when the key has no dict entry. -/

structure prioritymap (κ α : Type) where
  heap : List κ
  dict : List (κ × α)
deriving Repr

/-- Ordered insertion: the functional model of `heapq.heappush` (only the
pop-minimum behaviour of the heap is observable). -/
def heappush {κ : Type} [LinearOrder κ] (l : List κ) (k : κ) : List κ :=
  match l with
  | [] => [k]
  | x :: rest => if k ≤ x then k :: x :: rest else x :: heappush rest k

/-- Empty prioritymap: `prioritymap()`. -/
def prioritymap.empty (κ α : Type) : prioritymap κ α := ⟨[], []⟩

/-- Membership test `key in self.__dict`. -/
def prioritymap.contains {κ α : Type} [DecidableEq κ]
    (m : prioritymap κ α) (k : κ) : Bool :=
  alist.mem m.dict k

/-- Item read `self.__dict[key]`. -/
def prioritymap.getitem {κ α : Type} [DecidableEq κ]
    (m : prioritymap κ α) (k : κ) : Option α :=
  alist.lookup m.dict k

/-- Size `len(self.__dict)`. -/
def prioritymap.size {κ α : Type} (m : prioritymap κ α) : Nat :=
  m.dict.length

/-- Assignment `self[key] = value`: unconditionally pushes `key` onto the
heap, then assigns the dict entry (duplicate heap keys are possible). -/
def prioritymap.setitem {κ α : Type} [LinearOrder κ] [DecidableEq κ]
    (m : prioritymap κ α) (k : κ) (v : α) : prioritymap κ α :=
  { heap := heappush m.heap k, dict := alist.set m.dict k v }

/-- Peek `self.__heap[0], self.__dict[self.__heap[0]]`; `IndexError` on an
empty heap, `KeyError` when the minimum key has no dict entry. -/
def prioritymap.minEntry {κ α : Type} [DecidableEq κ]
    (m : prioritymap κ α) : Except String (κ × α) :=
  match m.heap with
  | [] => Except.error "IndexError"
  | k :: _ =>
      match alist.lookup m.dict k with
      | none => Except.error "KeyError"
      | some v => Except.ok (k, v)

/-- Pop: `heapq.heappop` then `self.__dict[key]` then `self.__dict.pop(key)`.
A heap key whose dict entry was already removed raises `KeyError` at the
read `self.__dict[key]`. -/
def prioritymap.pop {κ α : Type} [DecidableEq κ]
    (m : prioritymap κ α) : Except String (κ × α × prioritymap κ α) :=
  match m.heap with
  | [] => Except.error "IndexError"
  | k :: rest =>
      match alist.lookup m.dict k with
      | none => Except.error "KeyError"
      | some v => Except.ok (k, v, ⟨rest, alist.erase m.dict k⟩)

/-- Enumeration `values()`: iterates the heap list and reads each key's dict
entry (keys with no live entry would raise; in-sync maps never hit that,
and the model skips them to stay total, which is unobservable in the
algorithms' usage where heap and dict stay synchronized or the map is
rebuilt from scratch). -/
def prioritymap.values {κ α : Type} [DecidableEq κ]
    (m : prioritymap κ α) : List α :=
  m.heap.filterMap (fun k => alist.lookup m.dict k)

/-! ## C4: popping a stale heap key

Claim C4 states that popping when the heap minimum has no live bucket is a
no-op skip and does not raise.  The source's `pop` reads
`self.__dict[key]` unconditionally, which raises `KeyError` for a stale
key.  Such a state is reachable through the public interface: assigning the
same key twice pushes it onto the heap twice while the dict keeps one
binding, so the second pop finds a heap key with no dict entry. -/

/-- A prioritymap state reached by `m[1] = [10]; m[1] = [20]; m.pop()`:
its heap still holds the key `1` while the dict no longer has a bucket
for it. -/
def staleStatePM : Except String (ℚ × List ℕ × prioritymap ℚ (List ℕ)) :=
  (((prioritymap.empty ℚ (List ℕ)).setitem 1 [10]).setitem 1 [20]).pop

/-- C4 counterexample: a reachable state whose heap minimum has no live
bucket, on which `pop` raises `KeyError` instead of being a no-op skip.
The first conjunct shows the state is reached with the stale key `1` still
on the heap and an empty dict; the second shows `pop` errors there. -/
theorem C4_counterexample :
    (∃ st : prioritymap ℚ (List ℕ),
        staleStatePM = Except.ok (1, [20], st) ∧
        st.heap = [1] ∧ st.dict = [] ∧
        st.pop = Except.error "KeyError") := by
  refine ⟨⟨[1], []⟩, ?_, rfl, rfl, rfl⟩
  rfl

/-- C4 (amended): for every prioritymap state in which the underlying
heap's minimum key has no live bucket in the map, `pop` raises `KeyError`
(it is an error, not a silent no-op skip). -/
theorem C4_pop_stale_key_raises {κ α : Type} [DecidableEq κ]
    (m : prioritymap κ α) (k : κ) (rest : List κ)
    (hheap : m.heap = k :: rest)
    (hstale : alist.lookup m.dict k = none) :
    m.pop = Except.error "KeyError" := by
  obtain ⟨heap, dict⟩ := m
  simp only at hheap hstale
  subst hheap
  simp only [prioritymap.pop, hstale]

/-- Witness for C4's amended theorem at the concrete reachable stale state
`⟨[1], []⟩` from the counterexample scenario. -/
theorem C4_pop_stale_key_raises_witness :
    (prioritymap.pop (κ := ℚ) (α := List ℕ) ⟨[1], []⟩)
      = Except.error "KeyError" :=
  C4_pop_stale_key_raises ⟨[1], []⟩ 1 [] rfl rfl

/-! ## Geometry kernel (src/ui.py)

Coordinates are exact rationals.  `Line.slope` returns `none` where the
source stores `float("inf")` (vertical line); `Line.y_intercept` returns
`none` for vertical lines, where the source stores `±inf` or `NaN` — that
value is only ever read through `x_to_y` on non-vertical lines, so the
`Option` faithfully captures every observable use.  The cached attributes
of the Python classes are pure functions of the constructor arguments and
are never mutated, so they are modelled as functions. -/

structure Point where
  x : ℚ
  y : ℚ
deriving DecidableEq, Repr

structure Line where
  point1 : Point
  point2 : Point
deriving DecidableEq, Repr

/-- Slope attribute: `inf` (here `none`) if the line goes straight up/down,
otherwise `(y2 - y1) / (x2 - x1)`. -/
def Line.slope (l : Line) : Option ℚ :=
  if l.point1.x = l.point2.x then none
  else some ((l.point2.y - l.point1.y) / (l.point2.x - l.point1.x))

/-- Y-intercept attribute `point1.y - slope * point1.x`; `none` models the
non-finite float produced for a vertical line. -/
def Line.y_intercept (l : Line) : Option ℚ :=
  (Line.slope l).map (fun m => l.point1.y - m * l.point1.x)

/-- Plot of x to y on the line, `slope * x + y_intercept`; `none` models the
`NaN` result for a vertical line. -/
def Line.x_to_y (l : Line) (x : ℚ) : Option ℚ :=
  match Line.slope l, Line.y_intercept l with
  | some m, some b => some (m * x + b)
  | _, _ => none

/-- Attribute `x_left`: the leftmost x coordinate the line reaches. -/
def Line.x_left (l : Line) : ℚ := min l.point1.x l.point2.x

/-- Attribute `x_right`. -/
def Line.x_right (l : Line) : ℚ := max l.point1.x l.point2.x

/-- Attribute `y_top`. -/
def Line.y_top (l : Line) : ℚ := max l.point1.y l.point2.y

/-- Attribute `y_bottom`. -/
def Line.y_bottom (l : Line) : ℚ := min l.point1.y l.point2.y

/-- Intersection of the two lines extended infinitely:
`None` when the slopes compare equal, the special vertical cases, and
otherwise `x = (b1 - b2) / (m2 - m1)` plotted back onto the first line. -/
def Line.point_of_intersection (l other : Line) : Option Point :=
  if Line.slope l = Line.slope other then none
  else
    match Line.slope l with
    | none => (Line.x_to_y other l.point1.x).map (fun y => ⟨l.point1.x, y⟩)
    | some ms =>
        match Line.slope other with
        | none => (Line.x_to_y l other.point1.x).map (fun y => ⟨other.point1.x, y⟩)
        | some mo =>
            match Line.y_intercept l, Line.y_intercept other with
            | some bs, some bo =>
                let x := (bs - bo) / (mo - ms)
                (Line.x_to_y l x).map (fun y => ⟨x, y⟩)
            | _, _ => none

structure Rect where
  lower_left : Point
  upper_right : Point
deriving DecidableEq, Repr

/-- Constructor of `Rect`: normalizes two opposite corners to
lower-left/upper-right. -/
def mkRect (c1 c2 : Point) : Rect :=
  ⟨⟨min c1.x c2.x, min c1.y c2.y⟩, ⟨max c1.x c2.x, max c1.y c2.y⟩⟩

/-- Membership `coord in rect`: inclusive bounding-box test with 0.0005
(= 1/2000) tolerance on each side. -/
def Rect.contains (r : Rect) (p : Point) : Bool :=
  decide (r.lower_left.x - 1/2000 ≤ p.x ∧ p.x ≤ r.upper_right.x + 1/2000 ∧
          r.lower_left.y - 1/2000 ≤ p.y ∧ p.y ≤ r.upper_right.y + 1/2000)

/-- Segment intersection test: the point where the infinite lines cross must
lie in both segments' bounding rectangles. -/
def Line.intersects (l other : Line) : Bool :=
  match Line.point_of_intersection l other with
  | none => false
  | some poi =>
      (mkRect l.point1 l.point2).contains poi &&
        (mkRect other.point1 other.point2).contains poi

/-! ## C5: exactly parallel segments never intersect -/

/-- C5: for every pair of segments with exactly equal slopes (including
collinear and overlapping segments), `point_of_intersection` reports no
intersection and `intersects` returns false. -/
theorem C5_parallel_never_intersects (l other : Line)
    (hs : Line.slope l = Line.slope other) :
    Line.point_of_intersection l other = none ∧
      Line.intersects l other = false := by
  have hpoi : Line.point_of_intersection l other = none := by
    unfold Line.point_of_intersection
    rw [if_pos hs]
  refine ⟨hpoi, ?_⟩
  unfold Line.intersects
  rw [hpoi]

/-- Witness for C5 at two collinear overlapping diagonal segments. -/
theorem C5_parallel_never_intersects_witness :
    Line.point_of_intersection ⟨⟨0, 0⟩, ⟨2, 2⟩⟩ ⟨⟨1, 1⟩, ⟨3, 3⟩⟩ = none ∧
      Line.intersects ⟨⟨0, 0⟩, ⟨2, 2⟩⟩ ⟨⟨1, 1⟩, ⟨3, 3⟩⟩ = false :=
  C5_parallel_never_intersects ⟨⟨0, 0⟩, ⟨2, 2⟩⟩ ⟨⟨1, 1⟩, ⟨3, 3⟩⟩
    (by norm_num [Line.slope])

/-! ## C6: the bounding-box tolerance of `intersects`

The claim (and spec §4.1) states the tolerance is 0.005 on each bound; the
source's `Rect.__contains__` uses 0.0005. -/

/-- Stated-claim predicate, following the claim's words: the point's
coordinates fall within the segment's bounding box with a tolerance of
0.005 (= 1/200) on each bound.  This is the spec-side definition used only
to compare against the code's behaviour. -/
def claimedBoxTolerance005 (l : Line) (p : Point) : Bool :=
  decide (Line.x_left l - 1/200 ≤ p.x ∧ p.x ≤ Line.x_right l + 1/200 ∧
          Line.y_bottom l - 1/200 ≤ p.y ∧ p.y ≤ Line.y_top l + 1/200)

/-- C6 counterexample: two non-parallel segments whose computed
intersection point lies within both bounding boxes at tolerance 0.005, yet
`intersects` returns false (the code's tolerance is 0.0005), so the claimed
equivalence fails at this input. -/
theorem C6_counterexample :
    Line.slope ⟨⟨0, 0⟩, ⟨1, 0⟩⟩ ≠ Line.slope ⟨⟨501/500, -1⟩, ⟨501/500, 1⟩⟩ ∧
    Line.point_of_intersection ⟨⟨0, 0⟩, ⟨1, 0⟩⟩ ⟨⟨501/500, -1⟩, ⟨501/500, 1⟩⟩
      = some ⟨501/500, 0⟩ ∧
    claimedBoxTolerance005 ⟨⟨0, 0⟩, ⟨1, 0⟩⟩ ⟨501/500, 0⟩ = true ∧
    claimedBoxTolerance005 ⟨⟨501/500, -1⟩, ⟨501/500, 1⟩⟩ ⟨501/500, 0⟩ = true ∧
    Line.intersects ⟨⟨0, 0⟩, ⟨1, 0⟩⟩ ⟨⟨501/500, -1⟩, ⟨501/500, 1⟩⟩ = false := by
  have hs1 : Line.slope ⟨⟨0, 0⟩, ⟨1, 0⟩⟩ = some 0 := by
    norm_num [Line.slope]
  have hs2 : Line.slope ⟨⟨501/500, -1⟩, ⟨501/500, 1⟩⟩ = none := by
    norm_num [Line.slope]
  have hpoi : Line.point_of_intersection ⟨⟨0, 0⟩, ⟨1, 0⟩⟩
      ⟨⟨501/500, -1⟩, ⟨501/500, 1⟩⟩ = some ⟨501/500, 0⟩ := by
    unfold Line.point_of_intersection
    rw [hs1, hs2, if_neg (fun h => Option.noConfusion h)]
    norm_num [Line.x_to_y, Line.y_intercept, hs1]
  refine ⟨by simp [hs1, hs2], hpoi, ?_, ?_, ?_⟩
  · norm_num [claimedBoxTolerance005, Line.x_left, Line.x_right,
      Line.y_bottom, Line.y_top]
  · norm_num [claimedBoxTolerance005, Line.x_left, Line.x_right,
      Line.y_bottom, Line.y_top]
  · simp only [Line.intersects, hpoi]
    have hrc : (mkRect (⟨0, 0⟩ : Point) ⟨1, 0⟩).contains ⟨501/500, 0⟩ = false := by
      norm_num [Rect.contains, mkRect]
    simp [hrc]

/-- C6 (amended): for every pair of non-parallel segments the computed
line-intersection point exists, and `intersects` returns true iff that
point's coordinates fall within both segments' bounding boxes with a
tolerance of 0.0005 (= 1/2000) on each bound. -/
theorem C6_intersects_iff_bbox_1over2000 (l other : Line)
    (hs : Line.slope l ≠ Line.slope other) :
    ∃ p : Point, Line.point_of_intersection l other = some p ∧
      (Line.intersects l other = true ↔
        (Line.x_left l - 1/2000 ≤ p.x ∧ p.x ≤ Line.x_right l + 1/2000 ∧
         Line.y_bottom l - 1/2000 ≤ p.y ∧ p.y ≤ Line.y_top l + 1/2000 ∧
         Line.x_left other - 1/2000 ≤ p.x ∧ p.x ≤ Line.x_right other + 1/2000 ∧
         Line.y_bottom other - 1/2000 ≤ p.y ∧ p.y ≤ Line.y_top other + 1/2000)) := by
  have hpoi : (Line.point_of_intersection l other).isSome = true := by
    unfold Line.point_of_intersection
    rw [if_neg hs]
    rcases hl : Line.slope l with _ | ms <;> rcases ho : Line.slope other with _ | mo
    · exact absurd (hl.trans ho.symm) hs
    · simp [Line.x_to_y, Line.y_intercept, ho]
    · simp [Line.x_to_y, Line.y_intercept, hl]
    · simp [Line.x_to_y, Line.y_intercept, hl, ho]
  rw [Option.isSome_iff_exists] at hpoi
  obtain ⟨p, hp⟩ := hpoi
  refine ⟨p, hp, ?_⟩
  unfold Line.intersects
  rw [hp]
  simp only [Bool.and_eq_true, Rect.contains, mkRect, decide_eq_true_eq]
  unfold Line.x_left Line.x_right Line.y_bottom Line.y_top
  constructor
  · rintro ⟨⟨h1, h2, h3, h4⟩, ⟨h5, h6, h7, h8⟩⟩
    exact ⟨h1, h2, h3, h4, h5, h6, h7, h8⟩
  · rintro ⟨h1, h2, h3, h4, h5, h6, h7, h8⟩
    exact ⟨⟨h1, h2, h3, h4⟩, ⟨h5, h6, h7, h8⟩⟩

/-- Witness for the amended C6 at two crossing diagonals meeting at (1,1). -/
theorem C6_intersects_iff_bbox_witness :
    ∃ p : Point,
      Line.point_of_intersection ⟨⟨0, 0⟩, ⟨2, 2⟩⟩ ⟨⟨0, 2⟩, ⟨2, 0⟩⟩ = some p ∧
      (Line.intersects ⟨⟨0, 0⟩, ⟨2, 2⟩⟩ ⟨⟨0, 2⟩, ⟨2, 0⟩⟩ = true ↔
        (Line.x_left ⟨⟨0, 0⟩, ⟨2, 2⟩⟩ - 1/2000 ≤ p.x ∧
         p.x ≤ Line.x_right ⟨⟨0, 0⟩, ⟨2, 2⟩⟩ + 1/2000 ∧
         Line.y_bottom ⟨⟨0, 0⟩, ⟨2, 2⟩⟩ - 1/2000 ≤ p.y ∧
         p.y ≤ Line.y_top ⟨⟨0, 0⟩, ⟨2, 2⟩⟩ + 1/2000 ∧
         Line.x_left ⟨⟨0, 2⟩, ⟨2, 0⟩⟩ - 1/2000 ≤ p.x ∧
         p.x ≤ Line.x_right ⟨⟨0, 2⟩, ⟨2, 0⟩⟩ + 1/2000 ∧
         Line.y_bottom ⟨⟨0, 2⟩, ⟨2, 0⟩⟩ - 1/2000 ≤ p.y ∧
         p.y ≤ Line.y_top ⟨⟨0, 2⟩, ⟨2, 0⟩⟩ + 1/2000)) :=
  C6_intersects_iff_bbox_1over2000 ⟨⟨0, 0⟩, ⟨2, 2⟩⟩ ⟨⟨0, 2⟩, ⟨2, 0⟩⟩
    (by norm_num [Line.slope])

/-! ## Shape / polygon (src/ui.py `Shape.__init__`)

The constructor builds lines between consecutive points, appends a closing
line when the last coordinate differs from the first (otherwise drops the
duplicated last point), and raises when fewer than 3 lines (counted with
multiplicity) result.  An empty argument list raises `IndexError` at
`self.points[-1]`. -/

structure Shape where
  points : List Point
  lines : List Line
deriving DecidableEq, Repr

/-- Boundary lines built by the constructor: consecutive pairs
`zip(points[:-1], points[1:])`, plus the closing line back to the first
point when the polygon is not explicitly closed. -/
def shapeLines (coords : List Point) : List Line :=
  match coords with
  | [] => []
  | c0 :: rest =>
      let lines := ((c0 :: rest).zip rest).map (fun pr => Line.mk pr.1 pr.2)
      let last := (c0 :: rest).getLast (List.cons_ne_nil c0 rest)
      if last ≠ c0 then lines ++ [Line.mk last c0] else lines

/-- Shape constructor `Shape.__init__`. -/
def shapeInit (coords : List Point) : Except String Shape :=
  match coords with
  | [] => Except.error "IndexError"
  | c0 :: rest =>
      let last := (c0 :: rest).getLast (List.cons_ne_nil c0 rest)
      let finalPoints :=
        if last ≠ c0 then c0 :: rest else (c0 :: rest).dropLast
      if (shapeLines (c0 :: rest)).length < 3 then
        Except.error "The shape does not have enough points."
      else Except.ok ⟨finalPoints, shapeLines (c0 :: rest)⟩

/-- Unordered equality of lines, `Line.__eq__`: the endpoint pair as a
frozenset. -/
def Line.eqUnordered (a b : Line) : Bool :=
  decide ((a.point1 = b.point1 ∧ a.point2 = b.point2) ∨
          (a.point1 = b.point2 ∧ a.point2 = b.point1))

/-- Deduplication of a line list under unordered endpoint equality; its
length counts the distinct edges the claim speaks about. -/
def distinctEdges : List Line → List Line
  | [] => []
  | l :: rest =>
      let tail := distinctEdges rest
      if tail.any (fun m => Line.eqUnordered l m) then tail else l :: tail

/-- Length bound: deduplication never lengthens the list. -/
theorem distinctEdges_length_le (l : List Line) :
    (distinctEdges l).length ≤ l.length := by
  induction l with
  | nil => simp [distinctEdges]
  | cons x rest ih =>
      unfold distinctEdges
      by_cases h : (distinctEdges rest).any (fun m => Line.eqUnordered x m)
      · simp only [h, if_true]
        exact Nat.le_succ_of_le ih
      · simp only [h, if_false, List.length_cons]
        exact Nat.succ_le_succ ih

/-- C7 counterexample: four alternating coordinates produce a polygon that
is accepted by the constructor although only one distinct edge results
(the claim demands failure below 3 distinct edges, "never silently
accepted"). -/
theorem C7_counterexample :
    ∃ s : Shape,
      shapeInit [⟨0, 0⟩, ⟨1, 1⟩, ⟨0, 0⟩, ⟨1, 1⟩] = Except.ok s ∧
        (distinctEdges s.lines).length = 1 := by
  refine ⟨⟨[⟨0, 0⟩, ⟨1, 1⟩, ⟨0, 0⟩, ⟨1, 1⟩],
    [⟨⟨0, 0⟩, ⟨1, 1⟩⟩, ⟨⟨1, 1⟩, ⟨0, 0⟩⟩, ⟨⟨0, 0⟩, ⟨1, 1⟩⟩, ⟨⟨1, 1⟩, ⟨0, 0⟩⟩]⟩,
    rfl, rfl⟩

/-- C7 (amended): construction succeeds iff at least 3 boundary lines
result, where lines are counted with multiplicity (repeated and degenerate
lines included) rather than as distinct edges; consequently inputs with at
least 3 distinct edges always succeed, while some inputs with fewer than 3
distinct edges are accepted (see the counterexample). -/
theorem C7_shape_line_count (coords : List Point) :
    ((∃ s, shapeInit coords = Except.ok s) ↔ 3 ≤ (shapeLines coords).length) ∧
      (3 ≤ (distinctEdges (shapeLines coords)).length →
        ∃ s, shapeInit coords = Except.ok s) := by
  have main : (∃ s, shapeInit coords = Except.ok s) ↔
      3 ≤ (shapeLines coords).length := by
    cases coords with
    | nil =>
        constructor
        · rintro ⟨s, hs⟩
          exact Except.noConfusion hs
        · intro h
          simp [shapeLines] at h
    | cons c0 rest =>
        unfold shapeInit
        by_cases h : (shapeLines (c0 :: rest)).length < 3
        · simp only [h, if_true]
          constructor
          · rintro ⟨s, hs⟩
            exact Except.noConfusion hs
          · intro hle
            exact absurd h (Nat.not_lt.mpr hle)
        · simp only [h, if_false]
          exact ⟨fun _ => Nat.not_lt.mp h, fun _ => ⟨_, rfl⟩⟩
  refine ⟨main, fun h => main.mpr ?_⟩
  exact le_trans h (distinctEdges_length_le _)

/-- Witness for the amended C7: a genuine triangle is accepted. -/
theorem C7_shape_line_count_witness :
    ∃ s, shapeInit [⟨0, 0⟩, ⟨4, 0⟩, ⟨0, 3⟩] = Except.ok s :=
  (C7_shape_line_count [⟨0, 0⟩, ⟨4, 0⟩, ⟨0, 3⟩]).1.mpr (by decide)

/-! ## A* search (src/algorithms.py `a_star`)

The embedding is generic over the vertex type `α` and the cost type `K`
(an arbitrary linearly ordered commutative ring: the source is duck-typed
over numbers and uses only `+`, `*`, comparisons and `float("inf")`, here
`⊤ : WithTop K`).  The state carries, besides the translated program
variables, ghost logs of every call made to the caller-supplied functions
`get_neighbors`, `get_distance`, `heuristic` and `callback`; the logs never
influence control flow. -/

/-- Removal of the popped point from the minimum bucket, lines 92-94 and
162-164 of the source: the set stored for the minimum key loses the popped
element in place, and when it becomes empty the whole bucket and its heap
key are removed via `to_search.pop()`. -/
def pm_drain_min {α K : Type} [DecidableEq α] [LinearOrderedCommRing K]
    (pm : prioritymap (WithTop K) (List α)) (curr_cost : WithTop K)
    (bucketRest : List α) : prioritymap (WithTop K) (List α) :=
  let ts1 : prioritymap (WithTop K) (List α) :=
    { pm with dict := alist.set pm.dict curr_cost bucketRest }
  if bucketRest.length = 0 then
    match ts1.pop with
    | .ok (_, _, m) => m
    | .error _ => ts1
  else ts1

/-- Bucket update `to_search[key].add(x)`: mutates the set stored for a live
key in place (no heap push). -/
def prioritymap.bucketAdd {κ α : Type} [DecidableEq κ] [DecidableEq α]
    (m : prioritymap κ (List α)) (k : κ) (x : α) : prioritymap κ (List α) :=
  match alist.lookup m.dict k with
  | none => m
  | some b => { m with dict := alist.set m.dict k (pset.add b x) }

structure AStarState (α K : Type) where
  to_search : prioritymap (WithTop K) (List α)
  searched : List α
  prev : List (α × α)
  cost : List (α × WithTop K)
  cost_with_heuristic : List (α × WithTop K)
  neighborLog : List α
  distLog : List (α × α)
  heurLog : List α
  callbackLog : List α
deriving Repr

inductive AStarResult (α : Type) where
  | found : List α → AStarResult α
  | noPath : AStarResult α
  | stuck : AStarResult α
  | outOfFuel : AStarResult α
deriving DecidableEq, Repr

/-- Path reconstruction `build_path`: follows `prev` links from `p` back to
`start`, and returns the path in travel order (the source appends then
reverses).  `none` models the source diverging or raising on a broken
`prev` chain, which never happens in reachable states. -/
def build_path_aux {α : Type} [DecidableEq α] (prev : List (α × α))
    (start : α) : ℕ → α → Option (List α)
  | 0, _ => none
  | fuel + 1, tmp =>
      if tmp = start then some [start]
      else
        match alist.lookup prev tmp with
        | none => none
        | some v => (build_path_aux prev start fuel v).map (fun p => p ++ [tmp])

/-- Path reconstruction entry point; the fuel `prev.length + 1` suffices for
every grounded chain. -/
def build_path {α : Type} [DecidableEq α] (prev : List (α × α))
    (start p : α) : Option (List α) :=
  build_path_aux prev start (prev.length + 1) p

/-- Pruning guard `if max_cost and cost_with_heuristic[neighbor] > max_cost`:
Python truthiness makes `max_cost = 0` (and `None`) skip the pruning. -/
def max_cost_prunes {K : Type} [LinearOrderedCommRing K]
    (max_cost : Option K) (cwh : WithTop K) : Bool :=
  match max_cost with
  | none => false
  | some m => decide (m ≠ 0) && decide ((m : WithTop K) < cwh)

/-- One iteration of the neighbor loop body of `a_star` for a single
neighbor: computes `calc`, and on improvement updates `prev`, `cost`,
`cost_with_heuristic` and inserts into the frontier unless pruned by
`max_cost`. -/
def relax_one {α K : Type} [DecidableEq α] [LinearOrderedCommRing K]
    (get_distance : α → α → K) (heuristic : α → K) (max_cost : Option K)
    (current : α) (st : AStarState α K) (neighbor : α) : AStarState α K :=
  let st := { st with distLog := st.distLog ++ [(current, neighbor)] }
  let calcCost := alist.findInf st.cost current + ((get_distance current neighbor : K) : WithTop K)
  if calcCost < alist.findInf st.cost neighbor then
    let st := { st with
      prev := alist.set st.prev neighbor current,
      cost := alist.set st.cost neighbor calcCost,
      heurLog := st.heurLog ++ [neighbor] }
    let cwh := calcCost + ((heuristic neighbor : K) : WithTop K)
    let st := { st with
      cost_with_heuristic := alist.set st.cost_with_heuristic neighbor cwh }
    if max_cost_prunes max_cost cwh then st
    else if st.to_search.contains cwh then
      { st with to_search := st.to_search.bucketAdd cwh neighbor }
    else
      { st with to_search := st.to_search.setitem cwh [neighbor] }
  else st

/-- One iteration of the main `while` loop of `a_star`.  Returns
`(some result, state)` when the function returns during this iteration and
`(none, state)` to continue looping. -/
def a_star_step {α K : Type} [DecidableEq α] [LinearOrderedCommRing K]
    (get_neighbors : α → List α) (get_distance : α → α → K)
    (heuristic : α → K) (max_cost : Option K) (start target : α)
    (st : AStarState α K) : Option (AStarResult α) × AStarState α K :=
  if st.to_search.size = 0 then (some .noPath, st)
  else
    match st.to_search.minEntry with
    | .error _ => (some .stuck, st)
    | .ok (curr_cost, bucket) =>
        match bucket with
        | [] => (some .stuck, st)
        | current :: bucketRest =>
            let st := { st with
              to_search := pm_drain_min st.to_search curr_cost bucketRest }
            if current ∈ st.searched then (none, st)
            else
              let st := { st with callbackLog := st.callbackLog ++ [current] }
              if current = target then
                match build_path st.prev start current with
                | some p => (some (.found p), st)
                | none => (some .stuck, st)
              else
                let st := { st with neighborLog := st.neighborLog ++ [current] }
                let neighbors := (pset.ofList (get_neighbors current)).filter
                  (fun n => n ∉ st.searched)
                let st := neighbors.foldl
                  (relax_one get_distance heuristic max_cost current) st
                (none, { st with searched := st.searched ++ [current] })

/-- Fueled main loop of `a_star`. -/
def a_star_loop {α K : Type} [DecidableEq α] [LinearOrderedCommRing K]
    (get_neighbors : α → List α) (get_distance : α → α → K)
    (heuristic : α → K) (max_cost : Option K) (start target : α) :
    ℕ → AStarState α K → AStarResult α × AStarState α K
  | 0, st => (.outOfFuel, st)
  | fuel + 1, st =>
      match a_star_step get_neighbors get_distance heuristic max_cost
        start target st with
      | (some r, st2) => (r, st2)
      | (none, st2) =>
          a_star_loop get_neighbors get_distance heuristic max_cost
            start target fuel st2

/-- Initial search state of `a_star`: `cost[start] = 0`,
`cost_with_heuristic[start] = heuristic(start)` (one heuristic call),
frontier `{heuristic(start): {start}}`. -/
def a_star_init {α K : Type} [DecidableEq α] [LinearOrderedCommRing K]
    (heuristic : α → K) (start : α) : AStarState α K :=
  { to_search := (prioritymap.empty (WithTop K) (List α)).setitem
      ((heuristic start : K) : WithTop K) [start]
    searched := []
    prev := []
    cost := [(start, (0 : WithTop K))]
    cost_with_heuristic := [(start, ((heuristic start : K) : WithTop K))]
    neighborLog := []
    distLog := []
    heurLog := [start]
    callbackLog := [] }

/-- The `a_star` function: returns the source's return value together with
the final state (whose ghost logs record the oracle calls). -/
def a_star {α K : Type} [DecidableEq α] [LinearOrderedCommRing K]
    (start target : α) (get_neighbors : α → List α)
    (get_distance : α → α → K) (heuristic : α → K) (max_cost : Option K)
    (fuel : ℕ) : AStarResult α × AStarState α K :=
  a_star_loop get_neighbors get_distance heuristic max_cost start target fuel
    (a_star_init heuristic start)

/-! ## Paths and their costs -/

/-- Consecutive-edge validity: every step goes to a point listed by
`get_neighbors` at the previous point. -/
def chainOk {α : Type} [DecidableEq α] (get_neighbors : α → List α) :
    List α → Bool
  | [] => true
  | [_] => true
  | x :: y :: rest => decide (y ∈ get_neighbors x) && chainOk get_neighbors (y :: rest)

/-- A valid path from `start` to `target` through the neighbor relation. -/
def isPath {α : Type} [DecidableEq α] (get_neighbors : α → List α)
    (start target : α) (p : List α) : Bool :=
  match p with
  | [] => false
  | x :: _ =>
      decide (x = start) && decide (p.getLast? = some target) &&
        chainOk get_neighbors p

/-- Total edge cost of a path. -/
def edgeSum {α K : Type} [LinearOrderedCommRing K]
    (get_distance : α → α → K) : List α → K
  | [] => 0
  | [_] => 0
  | x :: y :: rest => get_distance x y + edgeSum get_distance (y :: rest)

/-! ## C1: optimality under an admissible heuristic

The claim asserts optimality for every admissible heuristic.  The source
finalizes each point once and never re-expands it, which is only sound for
*consistent* heuristics: an admissible but inconsistent heuristic below
makes `a_star` finalize point 1 with a suboptimal g-cost and return a
103-cost path although a 102-cost path exists. -/

/-- Counterexample graph: `0 → {1, 2}`, `1 → {3}`, `2 → {1}` with goal 3. -/
def nbC1 : ℕ → List ℕ := fun u =>
  if u = 0 then [1, 2] else if u = 1 then [3] else if u = 2 then [1] else []

/-- Counterexample edge costs: `0→1` costs 3, `0→2` costs 1, `2→1` costs 1,
`1→3` costs 100. -/
def dC1 : ℕ → ℕ → ℤ := fun u v =>
  if u = 0 ∧ v = 1 then 3 else if u = 0 ∧ v = 2 then 1
  else if u = 2 ∧ v = 1 then 1 else if u = 1 ∧ v = 3 then 100 else 0

/-- Counterexample heuristic: 3 at point 2, otherwise 0.  Admissible (true
remaining costs are 102, 100, 101, 0 from points 0, 1, 2, 3) but not
consistent across the edge `2 → 1`. -/
def hC1 : ℕ → ℤ := fun u => if u = 2 then 3 else 0

/-- Edge sums are nonnegative for nonnegative cost functions. -/
theorem edgeSum_nonneg {α K : Type} [LinearOrderedCommRing K]
    (gd : α → α → K) (hd : ∀ u v, 0 ≤ gd u v) :
    ∀ p : List α, 0 ≤ edgeSum gd p := by
  intro p
  induction p with
  | nil => simp [edgeSum]
  | cons x rest ih =>
      cases rest with
      | nil => simp [edgeSum]
      | cons y t =>
          have := hd x y
          have h2 : 0 ≤ edgeSum gd (y :: t) := ih
          simp only [edgeSum]
          positivity

/-- Nonnegativity of the counterexample's edge costs. -/
theorem dC1_nonneg : ∀ u v, 0 ≤ dC1 u v := by
  intro u v
  unfold dC1
  split_ifs <;> decide

/-- The counterexample graph reaches only the four points `0, 1, 2, 3`. -/
theorem nbC1_finite : ∀ u v, v ∈ nbC1 u → v ≤ 3 := by
  intro u v hv
  unfold nbC1 at hv
  split_ifs at hv <;> simp_all
  omega

/-- Admissibility of the counterexample heuristic: it never overestimates
the total cost of any path to the goal 3. -/
theorem hC1_admissible :
    ∀ n q, isPath nbC1 n 3 q = true → hC1 n ≤ edgeSum dC1 q := by
  intro n q hq
  by_cases hn : n = 2
  · subst hn
    rcases q with _ | ⟨a, q1⟩
    · simp [isPath] at hq
    · simp only [isPath, Bool.and_eq_true, decide_eq_true_eq] at hq
      obtain ⟨⟨ha, hlast⟩, hchain⟩ := hq
      subst ha
      rcases q1 with _ | ⟨b, q2⟩
      · simp at hlast
      · simp only [chainOk, Bool.and_eq_true, decide_eq_true_eq] at hchain
        obtain ⟨hb, hchain⟩ := hchain
        have hb1 : b = 1 := by simpa [nbC1] using hb
        subst hb1
        rcases q2 with _ | ⟨c, q3⟩
        · simp at hlast
        · simp only [chainOk, Bool.and_eq_true, decide_eq_true_eq] at hchain
          obtain ⟨hc, hchain⟩ := hchain
          have hc3 : c = 3 := by simpa [nbC1] using hc
          subst hc3
          rcases q3 with _ | ⟨e, q4⟩
          · decide
          · simp only [chainOk, Bool.and_eq_true, decide_eq_true_eq] at hchain
            obtain ⟨he, _⟩ := hchain
            simp [nbC1] at he
  · have h0 : hC1 n = 0 := by simp [hC1, hn]
    rw [h0]
    exact edgeSum_nonneg dC1 dC1_nonneg q

/-- C1 counterexample: on the graph above — finite, nonnegative edge costs,
admissible heuristic, no `max_cost` — `a_star` returns the path
`[0, 1, 3]` of total cost 103 although the valid path `[0, 2, 1, 3]` costs
102, so the returned cost is not minimal. -/
theorem C1_counterexample :
    (∀ u v, 0 ≤ dC1 u v) ∧
    (∀ u v, v ∈ nbC1 u → v ≤ 3) ∧
    (∀ n q, isPath nbC1 n 3 q = true → hC1 n ≤ edgeSum dC1 q) ∧
    (a_star 0 3 nbC1 dC1 hC1 none 10).1 = .found [0, 1, 3] ∧
    isPath nbC1 0 3 [0, 1, 3] = true ∧
    edgeSum dC1 [0, 1, 3] = 103 ∧
    isPath nbC1 0 3 [0, 2, 1, 3] = true ∧
    edgeSum dC1 [0, 2, 1, 3] = 102 :=
  ⟨dC1_nonneg, nbC1_finite, hC1_admissible, by decide, by decide, by decide,
    by decide, by decide⟩
/-- C9: when start equals the goal, `a_star` returns the single-point path
`[start]`; `get_neighbors` and `get_distance` are never called, and the
heuristic is evaluated exactly once, on the start point. -/
theorem C9_start_equals_goal {α K : Type} [DecidableEq α]
    [LinearOrderedCommRing K] (start : α) (gn : α → List α)
    (gd : α → α → K) (h : α → K) (mc : Option K) (fuel : ℕ) :
    (a_star start start gn gd h mc (fuel + 1)).1 = .found [start] ∧
      (a_star start start gn gd h mc (fuel + 1)).2.neighborLog = [] ∧
      (a_star start start gn gd h mc (fuel + 1)).2.distLog = [] ∧
      (a_star start start gn gd h mc (fuel + 1)).2.heurLog = [start] := by
  have hstep : a_star_step gn gd h mc start start (a_star_init h start) =
      (some (.found [start]),
        { a_star_init h start with
          to_search := ⟨[], []⟩,
          callbackLog := [start] }) := by
    simp [a_star_step, a_star_init, prioritymap.size, prioritymap.empty,
      prioritymap.setitem, prioritymap.minEntry, prioritymap.pop, heappush,
      pm_drain_min, alist.set, alist.lookup, alist.erase, build_path,
      build_path_aux]
  have : a_star start start gn gd h mc (fuel + 1) =
      (.found [start],
        { a_star_init h start with
          to_search := ⟨[], []⟩,
          callbackLog := [start] }) := by
    unfold a_star a_star_loop
    rw [hstep]
  rw [this]
  exact ⟨rfl, rfl, rfl, rfl⟩
/-- The pruning guard treats `max_cost = 0` exactly like `max_cost = None`,
because the source tests the truthiness of `max_cost`. -/
theorem max_cost_prunes_zero {K : Type} [LinearOrderedCommRing K]
    (cwh : WithTop K) :
    max_cost_prunes (some (0 : K)) cwh = max_cost_prunes none cwh := by
  simp [max_cost_prunes]

theorem relax_one_max_cost_zero {α K : Type} [DecidableEq α]
    [LinearOrderedCommRing K] (gd : α → α → K) (h : α → K) (current : α)
    (st : AStarState α K) (n : α) :
    relax_one gd h (some (0 : K)) current st n = relax_one gd h none current st n := by
  unfold relax_one
  simp only [max_cost_prunes_zero]

/-- C10: passing `max_cost = 0` disables the cutoff entirely; the whole run
(result and final state, logs included) coincides with `max_cost = None`. -/
theorem C10_max_cost_zero_disables_cutoff {α K : Type} [DecidableEq α]
    [LinearOrderedCommRing K] (start target : α) (gn : α → List α)
    (gd : α → α → K) (h : α → K) (fuel : ℕ) :
    a_star start target gn gd h (some (0 : K)) fuel =
      a_star start target gn gd h none fuel := by
  have hrel : relax_one gd h (some (0 : K)) = relax_one gd h none := by
    funext current st n
    exact relax_one_max_cost_zero gd h current st n
  have hstep : ∀ st, a_star_step gn gd h (some (0 : K)) start target st =
      a_star_step gn gd h none start target st := by
    intro st
    unfold a_star_step
    rw [hrel]
  suffices hloop : ∀ fuel st,
      a_star_loop gn gd h (some (0 : K)) start target fuel st =
        a_star_loop gn gd h none start target fuel st by
    unfold a_star
    exact hloop fuel _
  intro n
  induction n with
  | zero => intro st; rfl
  | succ m ih =>
      intro st
      unfold a_star_loop
      rw [hstep st]
      cases hr : a_star_step gn gd h none start target st with
      | mk r st2 =>
          cases r with
          | none => exact ih st2
          | some res => rfl
/-- Appending a fresh element preserves the absence of duplicates. -/
theorem nodup_snoc {α : Type} {l : List α} {a : α} (ha : a ∉ l)
    (hl : l.Nodup) : (l ++ [a]).Nodup :=
  List.nodup_append.mpr ⟨hl, List.nodup_singleton a, fun x hx hax => by
    simp only [List.mem_singleton] at hax
    subst hax
    exact ha hx⟩

/-- Relaxation never touches the `searched` set or the expansion logs. -/
theorem relax_one_fixed {α K : Type} [DecidableEq α] [LinearOrderedCommRing K]
    (gd : α → α → K) (h : α → K) (mc : Option K) (current : α)
    (st : AStarState α K) (n : α) :
    (relax_one gd h mc current st n).searched = st.searched ∧
      (relax_one gd h mc current st n).neighborLog = st.neighborLog ∧
      (relax_one gd h mc current st n).callbackLog = st.callbackLog := by
  unfold relax_one
  dsimp only
  split
  · split
    · exact ⟨rfl, rfl, rfl⟩
    · split
      · exact ⟨rfl, rfl, rfl⟩
      · exact ⟨rfl, rfl, rfl⟩
  · exact ⟨rfl, rfl, rfl⟩

/-- Folded relaxation never touches the `searched` set or expansion logs. -/
theorem foldl_relax_fixed {α K : Type} [DecidableEq α]
    [LinearOrderedCommRing K] (gd : α → α → K) (h : α → K) (mc : Option K)
    (current : α) (l : List α) (st : AStarState α K) :
    (l.foldl (relax_one gd h mc current) st).searched = st.searched ∧
      (l.foldl (relax_one gd h mc current) st).neighborLog = st.neighborLog ∧
      (l.foldl (relax_one gd h mc current) st).callbackLog = st.callbackLog := by
  induction l generalizing st with
  | nil => exact ⟨rfl, rfl, rfl⟩
  | cons x t ih =>
      simp only [List.foldl_cons]
      obtain ⟨h1, h2, h3⟩ := ih (relax_one gd h mc current st x)
      obtain ⟨g1, g2, g3⟩ := relax_one_fixed gd h mc current st x
      exact ⟨h1.trans g1, h2.trans g2, h3.trans g3⟩

/-- Loop invariant for C8: expansions and callback calls track the searched
set exactly, without duplicates, and the target is never expanded. -/
def C8Inv {α K : Type} (target : α) (st : AStarState α K) : Prop :=
  st.searched = st.neighborLog ∧ st.neighborLog.Nodup ∧
    st.callbackLog = st.neighborLog ∧ target ∉ st.neighborLog

/-- Conclusion shape for C8 at any final state. -/
def C8Fin {α K : Type} (st : AStarState α K) : Prop :=
  st.neighborLog.Nodup ∧ st.callbackLog.Nodup ∧ st.searched = st.neighborLog

theorem C8Fin_of_inv {α K : Type} {target : α} {st : AStarState α K}
    (h : C8Inv target st) : C8Fin st := by
  obtain ⟨h1, h2, h3, _⟩ := h
  exact ⟨h2, h3 ▸ h2, h1⟩

theorem a_star_step_C8 {α K : Type} [DecidableEq α] [LinearOrderedCommRing K]
    (gn : α → List α) (gd : α → α → K) (h : α → K) (mc : Option K)
    (start target : α) (st : AStarState α K) (hinv : C8Inv target st) :
    ((a_star_step gn gd h mc start target st).1 = none →
      C8Inv target (a_star_step gn gd h mc start target st).2) ∧
      C8Fin (a_star_step gn gd h mc start target st).2 := by
  obtain ⟨h1, h2, h3, h4⟩ := hinv
  unfold a_star_step
  dsimp only
  split
  · exact ⟨fun _ => ⟨h1, h2, h3, h4⟩, C8Fin_of_inv ⟨h1, h2, h3, h4⟩⟩
  · split
    · exact ⟨fun _ => ⟨h1, h2, h3, h4⟩, C8Fin_of_inv ⟨h1, h2, h3, h4⟩⟩
    · rename_i pr heq
      split
      · exact ⟨fun _ => ⟨h1, h2, h3, h4⟩, C8Fin_of_inv ⟨h1, h2, h3, h4⟩⟩
      · rename_i current bucketRest
        split
        · -- current already searched: state only changes to_search
          exact ⟨fun _ => ⟨h1, h2, h3, h4⟩, C8Fin_of_inv ⟨h1, h2, h3, h4⟩⟩
        · rename_i hcur
          split
          · rename_i hteq
            -- current = target: callback logged, then return
            split
            · refine ⟨fun hc => by simp at hc, ?_⟩
              refine ⟨h2, ?_, h1⟩
              dsimp only
              rw [h3]
              exact nodup_snoc (h1 ▸ hcur) h2
            · refine ⟨fun hc => by simp at hc, ?_⟩
              refine ⟨h2, ?_, h1⟩
              dsimp only
              rw [h3]
              exact nodup_snoc (h1 ▸ hcur) h2
          · rename_i hteq
            -- expansion
            obtain ⟨f1, f2, f3⟩ := foldl_relax_fixed gd h mc current
              ((pset.ofList (gn current)).filter (fun n => n ∉ st.searched))
              _
            constructor
            · intro _
              refine ⟨?_, ?_, ?_, ?_⟩
              · dsimp only
                rw [f1, f2]
                exact h1 ▸ rfl
              · rw [f2]
                dsimp only
                exact nodup_snoc (h1 ▸ hcur) h2
              · rw [f3, f2]
                dsimp only
                rw [h3]
              · rw [f2]
                dsimp only
                intro hmem
                rcases List.mem_append.mp hmem with hm | hm
                · exact h4 hm
                · simp at hm
                  exact hteq hm.symm
            · refine ⟨?_, ?_, ?_⟩
              · rw [f2]
                dsimp only
                exact nodup_snoc (h1 ▸ hcur) h2
              · rw [f3]
                dsimp only
                rw [h3]
                exact nodup_snoc (h1 ▸ hcur) h2
              · dsimp only
                rw [f1, f2]
                exact h1 ▸ rfl

theorem a_star_loop_C8 {α K : Type} [DecidableEq α] [LinearOrderedCommRing K]
    (gn : α → List α) (gd : α → α → K) (h : α → K) (mc : Option K)
    (start target : α) :
    ∀ fuel (st : AStarState α K), C8Inv target st →
      C8Fin (a_star_loop gn gd h mc start target fuel st).2 := by
  intro fuel
  induction fuel with
  | zero => intro st hinv; exact C8Fin_of_inv hinv
  | succ m ih =>
      intro st hinv
      obtain ⟨hcont, hfin⟩ := a_star_step_C8 gn gd h mc start target st hinv
      unfold a_star_loop
      rcases hr : a_star_step gn gd h mc start target st with ⟨r, st2⟩
      cases r with
      | none =>
          dsimp only
          exact ih st2 (by have := hcont (by rw [hr]); rwa [hr] at this)
      | some res =>
          dsimp only
          rw [hr] at hfin
          exact hfin

/-- C8: within a single `a_star` call every point is expanded at most once.
The ghost log `neighborLog` records each call of `get_neighbors` (one per
expansion, made only after the searched-set skip, so it has no duplicates),
`callbackLog` records each point that survived the skip up to the callback
and goal test (also duplicate-free), and the final searched set coincides
with the list of expanded points. -/
theorem C8_expand_at_most_once {α K : Type} [DecidableEq α]
    [LinearOrderedCommRing K] (start target : α) (gn : α → List α)
    (gd : α → α → K) (h : α → K) (mc : Option K) (fuel : ℕ) :
    (a_star start target gn gd h mc fuel).2.neighborLog.Nodup ∧
      (a_star start target gn gd h mc fuel).2.callbackLog.Nodup ∧
      (a_star start target gn gd h mc fuel).2.searched =
        (a_star start target gn gd h mc fuel).2.neighborLog := by
  have := a_star_loop_C8 gn gd h mc start target fuel (a_star_init h start)
    ⟨rfl, List.nodup_nil, rfl, List.not_mem_nil target⟩
  exact this

/-! ## ARA* search (src/algorithms.py `ara`)

The generator is modelled as a fueled state machine whose state accumulates
the yielded paths in order.  Ghost fields: `recorded` logs the value
`cost[current]` assigned to `best_cost` at each yield, `neighborLog` logs
each point whose neighbors are expanded.  A `none` step result models the
generator stopping (frontier exhausted, factors exhausted, or the source
raising/diverging, which never happens in reachable states). -/

structure AraState (α K : Type) where
  to_search : prioritymap (WithTop K) (List α)
  factors : List K
  prev : List (α × α)
  cost : List (α × WithTop K)
  cost_with_heuristic : List (α × WithTop K)
  best_cost : WithTop K
  yields : List (List α)
  recorded : List (WithTop K)
  neighborLog : List α
deriving Repr

/-- One iteration of `ara`'s neighbor loop for a single neighbor: admit the
neighbor only if it improves the g-cost *and* beats `best_cost` after
adding the un-inflated heuristic; priority uses the inflated heuristic
`factors[0] * heuristic(neighbor)`. -/
def ara_relax_one {α K : Type} [DecidableEq α] [LinearOrderedCommRing K]
    (get_distance : α → α → K) (heuristic : α → K) (factor : K)
    (current : α) (st : AraState α K) (neighbor : α) : AraState α K :=
  let calcCost := alist.findInf st.cost current +
    ((get_distance current neighbor : K) : WithTop K)
  if calcCost < alist.findInf st.cost neighbor ∧
      calcCost + ((heuristic neighbor : K) : WithTop K) < st.best_cost then
    let cwh := calcCost + ((factor * heuristic neighbor : K) : WithTop K)
    let st := { st with
      prev := alist.set st.prev neighbor current,
      cost := alist.set st.cost neighbor calcCost,
      cost_with_heuristic := alist.set st.cost_with_heuristic neighbor cwh }
    if st.to_search.contains cwh then
      { st with to_search := st.to_search.bucketAdd cwh neighbor }
    else
      { st with to_search := st.to_search.setitem cwh [neighbor] }
  else st

/-- Frontier rebuild executed when the goal is popped and factors remain:
re-keys every node of the residual frontier to
`cost[node] + factors[0] * heuristic(node)` (also updating
`cost_with_heuristic`) and installs all of them into a freshly built
prioritymap. -/
def ara_rebuild {α K : Type} [DecidableEq α] [LinearOrderedCommRing K]
    (heuristic : α → K) (factor : K) (cost : List (α × WithTop K))
    (nodes : List α)
    (cwh0 : List (α × WithTop K)) :
    prioritymap (WithTop K) (List α) × List (α × WithTop K) :=
  nodes.foldl
    (fun acc node =>
      let ch := alist.findInf cost node +
        ((factor * heuristic node : K) : WithTop K)
      let cwh2 := alist.set acc.2 node ch
      if acc.1.contains ch then (acc.1.bucketAdd ch node, cwh2)
      else (acc.1.setitem ch [node], cwh2))
    (prioritymap.empty (WithTop K) (List α), cwh0)

/-- One iteration of `ara`'s main loop.  Returns the updated state and
`true` when the loop keeps running, `false` when it stops (yields emitted
during the final iteration are retained in the returned state, matching
the generator emitting a path and then hitting `break`). -/
def ara_step {α K : Type} [DecidableEq α] [LinearOrderedCommRing K]
    (get_neighbors : α → List α) (get_distance : α → α → K)
    (heuristic : α → K) (start target : α) (st : AraState α K) :
    AraState α K × Bool :=
  if st.to_search.size = 0 then (st, false)
  else
    match st.factors with
    | [] => (st, false)
    | f0 :: frest =>
        match st.to_search.minEntry with
        | .error _ => (st, false)
        | .ok (curr_cost, bucket) =>
            match bucket with
            | [] => (st, false)
            | current :: bucketRest =>
                let st := { st with
                  to_search := pm_drain_min st.to_search curr_cost bucketRest }
                if current = target then
                  let styv : AraState α K × Bool :=
                    if alist.findInf st.cost current < st.best_cost then
                      match build_path st.prev start current with
                      | none => (st, false)
                      | some p => ({ st with
                          best_cost := alist.findInf st.cost current,
                          yields := st.yields ++ [p],
                          recorded := st.recorded ++
                            [alist.findInf st.cost current] }, true)
                    else (st, true)
                  match styv with
                  | (st, false) => (st, false)
                  | (st, true) =>
                      match frest with
                      | [] => ({ st with factors := frest }, false)
                      | f1 :: _ =>
                          let nodes := st.to_search.values.flatten
                          let rb := ara_rebuild heuristic f1 st.cost nodes
                            st.cost_with_heuristic
                          ({ st with
                            to_search := rb.1,
                            cost_with_heuristic := rb.2,
                            factors := frest }, true)
                else
                  let st := { st with neighborLog := st.neighborLog ++ [current] }
                  let neighbors := pset.ofList (get_neighbors current)
                  (neighbors.foldl
                    (ara_relax_one get_distance heuristic f0 current) st, true)

/-- Fueled main loop of `ara`. -/
def ara_loop {α K : Type} [DecidableEq α] [LinearOrderedCommRing K]
    (get_neighbors : α → List α) (get_distance : α → α → K)
    (heuristic : α → K) (start target : α) :
    ℕ → AraState α K → AraState α K
  | 0, st => st
  | fuel + 1, st =>
      match ara_step get_neighbors get_distance heuristic start target st with
      | (st2, false) => st2
      | (st2, true) =>
          ara_loop get_neighbors get_distance heuristic start target fuel st2

/-- Initial state of `ara`: `prev[start] = start`, `cost[start] = 0`,
`cost_with_heuristic[start] = heuristic(start)` (note: not multiplied by
the first inflation factor), frontier `{heuristic(start): {start}}`,
`best_cost = inf`. -/
def ara_init {α K : Type} [DecidableEq α] [LinearOrderedCommRing K]
    (heuristic : α → K) (factors : List K) (start : α) : AraState α K :=
  { to_search := (prioritymap.empty (WithTop K) (List α)).setitem
      ((heuristic start : K) : WithTop K) [start]
    factors := factors
    prev := [(start, start)]
    cost := [(start, (0 : WithTop K))]
    cost_with_heuristic := [(start, ((heuristic start : K) : WithTop K))]
    best_cost := ⊤
    yields := []
    recorded := []
    neighborLog := [] }

/-- The `ara` generator: runs the loop and returns the final state; the
`yields` field lists the yielded paths in order. -/
def ara {α K : Type} [DecidableEq α] [LinearOrderedCommRing K]
    (start target : α) (get_neighbors : α → List α)
    (get_distance : α → α → K) (factors : List K) (heuristic : α → K)
    (fuel : ℕ) : AraState α K :=
  ara_loop get_neighbors get_distance heuristic start target fuel
    (ara_init heuristic factors start)
/-- `ara`'s relaxation never touches the yield bookkeeping. -/
theorem ara_relax_one_ghost {α K : Type} [DecidableEq α]
    [LinearOrderedCommRing K] (gd : α → α → K) (h : α → K) (f : K)
    (current : α) (st : AraState α K) (n : α) :
    (ara_relax_one gd h f current st n).recorded = st.recorded ∧
      (ara_relax_one gd h f current st n).best_cost = st.best_cost ∧
      (ara_relax_one gd h f current st n).yields = st.yields := by
  unfold ara_relax_one
  dsimp only
  split
  · split
    · exact ⟨rfl, rfl, rfl⟩
    · exact ⟨rfl, rfl, rfl⟩
  · exact ⟨rfl, rfl, rfl⟩

/-- Folded `ara` relaxation never touches the yield bookkeeping. -/
theorem ara_foldl_relax_ghost {α K : Type} [DecidableEq α]
    [LinearOrderedCommRing K] (gd : α → α → K) (h : α → K) (f : K)
    (current : α) (l : List α) (st : AraState α K) :
    (l.foldl (ara_relax_one gd h f current) st).recorded = st.recorded ∧
      (l.foldl (ara_relax_one gd h f current) st).best_cost = st.best_cost ∧
      (l.foldl (ara_relax_one gd h f current) st).yields = st.yields := by
  induction l generalizing st with
  | nil => exact ⟨rfl, rfl, rfl⟩
  | cons x t ih =>
      simp only [List.foldl_cons]
      obtain ⟨h1, h2, h3⟩ := ih (ara_relax_one gd h f current st x)
      obtain ⟨g1, g2, g3⟩ := ara_relax_one_ghost gd h f current st x
      exact ⟨h1.trans g1, h2.trans g2, h3.trans g3⟩

/-- Invariant tying `best_cost` to the log of recorded yield costs: the log
is strictly decreasing and `best_cost` equals its last entry (or `inf`
before the first yield). -/
def araBestInv {α K : Type} [LinearOrderedCommRing K]
    (st : AraState α K) : Prop :=
  List.Chain' (fun a b => b < a) st.recorded ∧
    st.best_cost =
      (match st.recorded.getLast? with
       | none => (⊤ : WithTop K)
       | some c => c)

/-- A fold of `ara` relaxations preserves the recorded-cost invariant. -/
theorem ara_foldl_bestInv {α K : Type} [DecidableEq α]
    [LinearOrderedCommRing K] (gd : α → α → K) (h : α → K) (f : K)
    (current : α) (l : List α) (st : AraState α K)
    (hinv : araBestInv st) :
    araBestInv (l.foldl (ara_relax_one gd h f current) st) := by
  obtain ⟨h1, h2, _⟩ := ara_foldl_relax_ghost gd h f current l st
  obtain ⟨hc, hb⟩ := hinv
  exact ⟨h1 ▸ hc, by rw [h1, h2]; exact hb⟩

/-- One `ara` iteration preserves the recorded-cost invariant. -/
theorem ara_step_bestInv {α K : Type} [DecidableEq α]
    [LinearOrderedCommRing K] (gn : α → List α) (gd : α → α → K)
    (h : α → K) (start target : α) (st : AraState α K)
    (hinv : araBestInv st) :
    araBestInv (ara_step gn gd h start target st).1 := by
  obtain ⟨hchain, hbest⟩ := hinv
  unfold ara_step
  dsimp only
  split
  · exact ⟨hchain, hbest⟩
  · split
    · exact ⟨hchain, hbest⟩
    · split
      · exact ⟨hchain, hbest⟩
      · split
        · exact ⟨hchain, hbest⟩
        · split
          · -- current = target
            split
            · rename_i st2 hstyv
              -- styv = (st2, false): no new record was kept
              have hst2 : st2.recorded = st.recorded ∧
                  st2.best_cost = st.best_cost := by
                split at hstyv
                · split at hstyv
                  · rw [Prod.mk.injEq] at hstyv
                    obtain ⟨h1, _⟩ := hstyv
                    rw [← h1]
                    exact ⟨rfl, rfl⟩
                  · simp at hstyv
                · simp only [Prod.mk.injEq] at hstyv
                  obtain ⟨h1, _⟩ := hstyv
                  rw [← h1]
                  exact ⟨rfl, rfl⟩
              exact ⟨hst2.1 ▸ hchain, by rw [hst2.1, hst2.2]; exact hbest⟩
            · rename_i st2 hstyv
              -- styv = (st2, true): either a fresh yield or no improvement
              have hst2 : (st2.recorded = st.recorded ∧
                    st2.best_cost = st.best_cost) ∨
                  (∃ c, c < st.best_cost ∧
                    st2.recorded = st.recorded ++ [c] ∧ st2.best_cost = c) := by
                split at hstyv
                · rename_i hlt
                  split at hstyv
                  · simp at hstyv
                  · rw [Prod.mk.injEq] at hstyv
                    obtain ⟨h1, _⟩ := hstyv
                    rw [← h1]
                    exact Or.inr ⟨_, hlt, rfl, rfl⟩
                · rw [Prod.mk.injEq] at hstyv
                  obtain ⟨h1, _⟩ := hstyv
                  rw [← h1]
                  exact Or.inl ⟨rfl, rfl⟩
              have hinv2 : araBestInv st2 := by
                rcases hst2 with ⟨h1, h2⟩ | ⟨c, hc, h1, h2⟩
                · exact ⟨h1 ▸ hchain, by rw [h1, h2]; exact hbest⟩
                · constructor
                  · rw [h1, List.chain'_append]
                    refine ⟨hchain, List.chain'_singleton c, ?_⟩
                    intro x hx y hy
                    simp only [List.head?_cons, Option.mem_def,
                      Option.some.injEq] at hy
                    subst hy
                    rw [hbest] at hc
                    cases hlast : st.recorded.getLast? with
                    | none => simp [hlast] at hx
                    | some l =>
                        simp only [hlast, Option.mem_def,
                          Option.some.injEq] at hx
                        subst hx
                        rw [hlast] at hc
                        exact hc
                  · rw [h1, h2]
                    simp
              obtain ⟨hc2, hb2⟩ := hinv2
              split
              · exact ⟨hc2, hb2⟩
              · exact ⟨hc2, hb2⟩
          · -- expansion branch: relaxations keep the bookkeeping
            exact ara_foldl_bestInv gd h _ _ _ _ ⟨hchain, hbest⟩

theorem ara_loop_bestInv {α K : Type} [DecidableEq α]
    [LinearOrderedCommRing K] (gn : α → List α) (gd : α → α → K)
    (h : α → K) (start target : α) :
    ∀ fuel (st : AraState α K), araBestInv st →
      araBestInv (ara_loop gn gd h start target fuel st) := by
  intro fuel
  induction fuel with
  | zero => intro st hinv; exact hinv
  | succ m ih =>
      intro st hinv
      have hstep := ara_step_bestInv gn gd h start target st hinv
      unfold ara_loop
      rcases hr : ara_step gn gd h start target st with ⟨st2, cont⟩
      rw [hr] at hstep
      cases cont with
      | false => exact hstep
      | true => exact ih st2 hstep

/-- C2 (amended): across an entire `ara` run the sequence of goal g-costs
recorded at successive yields (the values assigned to `best_cost`) is
strictly decreasing.  The total edge cost of the yielded paths themselves
need not be monotone (see the counterexample): a yielded path can be
cheaper than its recorded cost when the predecessor map improved upstream
after the goal's g-cost was fixed. -/
theorem C2_ara_recorded_costs_decrease {α K : Type} [DecidableEq α]
    [LinearOrderedCommRing K] (start target : α) (gn : α → List α)
    (gd : α → α → K) (factors : List K) (h : α → K) (fuel : ℕ) :
    List.Chain' (fun a b => b < a)
      (ara start target gn gd factors h fuel).recorded := by
  have := ara_loop_bestInv gn gd h start target fuel
    (ara_init h factors start) ⟨List.chain'_nil, rfl⟩
  exact this.1

/-! ## C2 counterexample

An 8-node instance (nonnegative edge costs, nonnegative heuristic,
decreasing inflation factors) on which the edge costs of consecutively
yielded paths increase.  Mechanism: during the second pass the node 1 is
improved through 6 after the goal's cost was computed along the stale
chain, the improvement wave stalls at 2 (the `best_cost` prune rejects the
update since `calc + heuristic(2)` exceeds `best_cost`), so the second
yield's path [0,6,1,2,4,5] costs 5 while its recorded cost is 13; the
third pass then reaches the goal through 7 at cost 12 < 13 and yields a
path of edge cost 12 > 5. -/

/-- C2 counterexample graph. -/
def nbC2 : ℕ → List ℕ := fun u =>
  if u = 0 then [1, 6, 7] else if u = 1 then [2] else if u = 2 then [3, 4]
  else if u = 3 then [5] else if u = 4 then [5] else if u = 6 then [1]
  else if u = 7 then [5] else []

/-- C2 counterexample edge costs (0 outside the listed edges). -/
def dC2 : ℕ → ℕ → ℤ := fun u v =>
  if u = 0 ∧ v = 1 then 10 else if u = 1 ∧ v = 2 then 1
  else if u = 2 ∧ v = 3 then 3 else if u = 3 ∧ v = 5 then 3
  else if u = 2 ∧ v = 4 then 1 else if u = 4 ∧ v = 5 then 1
  else if u = 0 ∧ v = 6 then 1 else if u = 6 ∧ v = 1 then 1
  else if u = 0 ∧ v = 7 then 0 else if u = 7 ∧ v = 5 then 12 else 0

/-- C2 counterexample heuristic (nonnegative; inflated stalls drive the
pop order). -/
def hC2 : ℕ → ℤ := fun u =>
  if u = 2 then 20 else if u = 4 then 16 else if u = 6 then 21
  else if u = 7 then 23 else 0

set_option maxHeartbeats 2000000 in
/-- C2 counterexample: with nonnegative edge costs and heuristic and
decreasing factors (15, 2, 1), `ara` yields three paths whose total edge
costs are 17, 5 and 12: the consecutive pair (5, 12) increases, refuting
the claim that yielded path costs are non-increasing.  (The *recorded*
costs 17, 13, 12 do decrease.) -/
theorem C2_counterexample :
    (∀ u v, 0 ≤ dC2 u v) ∧
    (∀ u, 0 ≤ hC2 u) ∧
    (ara 0 5 nbC2 dC2 [15, 2, 1] hC2 20).yields =
      [[0, 1, 2, 3, 5], [0, 6, 1, 2, 4, 5], [0, 7, 5]] ∧
    (ara 0 5 nbC2 dC2 [15, 2, 1] hC2 20).recorded =
      [(17 : WithTop ℤ), 13, 12] ∧
    edgeSum dC2 [0, 6, 1, 2, 4, 5] = 5 ∧
    edgeSum dC2 [0, 7, 5] = 12 ∧
    ¬ edgeSum dC2 [0, 7, 5] ≤ edgeSum dC2 [0, 6, 1, 2, 4, 5] :=
  ⟨by intro u v; unfold dC2; split_ifs <;> decide,
   by intro u; unfold hC2; split_ifs <;> decide,
   by decide, by decide, by decide, by decide, by decide⟩
/-! ## Association-list and set lemmas -/

theorem alist.lookup_set_self {κ α : Type} [DecidableEq κ]
    (l : List (κ × α)) (k : κ) (v : α) :
    alist.lookup (alist.set l k v) k = some v := by
  induction l with
  | nil => simp [alist.set, alist.lookup]
  | cons p rest ih =>
      rcases p with ⟨k', v'⟩
      unfold alist.set
      by_cases h : k = k'
      · simp [h, alist.lookup]
      · simp only [if_neg h, alist.lookup]
        exact ih

theorem alist.lookup_set_ne {κ α : Type} [DecidableEq κ]
    (l : List (κ × α)) (k k2 : κ) (v : α) (hne : k2 ≠ k) :
    alist.lookup (alist.set l k v) k2 = alist.lookup l k2 := by
  induction l with
  | nil => simp [alist.set, alist.lookup, hne]
  | cons p rest ih =>
      rcases p with ⟨k', v'⟩
      unfold alist.set
      by_cases h : k = k'
      · subst h
        simp [alist.lookup, hne]
      · simp only [if_neg h]
        unfold alist.lookup
        by_cases h2 : k2 = k'
        · simp [h2]
        · simp only [if_neg h2]
          exact ih

theorem pset.mem_add {α : Type} [DecidableEq α] (s : List α) (x y : α) :
    x ∈ pset.add s y ↔ x ∈ s ∨ x = y := by
  unfold pset.add
  by_cases h : y ∈ s
  · simp only [if_pos h]
    exact ⟨Or.inl, fun hx => hx.elim id (fun e => e ▸ h)⟩
  · simp [if_neg h, List.mem_append]

/-! ## Extensional description of the ARA* frontier rebuild -/

/-- Invariant of the rebuild fold: bucket members are exactly the processed
nodes, each stored under its re-keyed priority
`cost[node] + factor * heuristic(node)`. -/
theorem ara_rebuild_fold_inv {α K : Type} [DecidableEq α]
    [LinearOrderedCommRing K] (h : α → K) (f : K)
    (cost : List (α × WithTop K)) :
    ∀ (nodes : List α) (acc : prioritymap (WithTop K) (List α) ×
        List (α × WithTop K)) (P : α → Prop),
      (∀ k b, alist.lookup acc.1.dict k = some b → ∀ x ∈ b,
        P x ∧ k = alist.findInf cost x + ((f * h x : K) : WithTop K)) →
      (∀ x, P x → ∃ b, alist.lookup acc.1.dict
        (alist.findInf cost x + ((f * h x : K) : WithTop K)) = some b ∧
          x ∈ b) →
      (∀ k b, alist.lookup
          (nodes.foldl (fun acc node =>
            let ch := alist.findInf cost node +
              ((f * h node : K) : WithTop K)
            let cwh2 := alist.set acc.2 node ch
            if acc.1.contains ch then (acc.1.bucketAdd ch node, cwh2)
            else (acc.1.setitem ch [node], cwh2)) acc).1.dict k = some b →
        ∀ x ∈ b, (P x ∨ x ∈ nodes) ∧
          k = alist.findInf cost x + ((f * h x : K) : WithTop K)) ∧
      (∀ x, P x ∨ x ∈ nodes → ∃ b, alist.lookup
          (nodes.foldl (fun acc node =>
            let ch := alist.findInf cost node +
              ((f * h node : K) : WithTop K)
            let cwh2 := alist.set acc.2 node ch
            if acc.1.contains ch then (acc.1.bucketAdd ch node, cwh2)
            else (acc.1.setitem ch [node], cwh2)) acc).1.dict
          (alist.findInf cost x + ((f * h x : K) : WithTop K)) = some b ∧
          x ∈ b) := by
  intro nodes
  induction nodes with
  | nil =>
      intro acc P hsound hcomp
      refine ⟨?_, ?_⟩
      · intro k b hb x hx
        obtain ⟨h1, h2⟩ := hsound k b hb x hx
        exact ⟨Or.inl h1, h2⟩
      · intro x hx
        rcases hx with hx | hx
        · exact hcomp x hx
        · simp at hx
  | cons n rest ih =>
      intro acc P hsound hcomp
      simp only [List.foldl_cons]
      set ch := alist.findInf cost n + ((f * h n : K) : WithTop K) with hch
      by_cases hc : acc.1.contains ch = true
      · -- existing bucket: add n to it
        simp only [hc, if_pos]
        have hex : ∃ b0, alist.lookup acc.1.dict ch = some b0 := by
          unfold prioritymap.contains alist.mem at hc
          exact Option.isSome_iff_exists.mp hc
        obtain ⟨b0, hb0⟩ := hex
        have hstep := ih (acc.1.bucketAdd ch n, alist.set acc.2 n ch)
          (fun x => P x ∨ x = n) ?_ ?_
        · obtain ⟨hs2, hc2⟩ := hstep
          refine ⟨?_, ?_⟩
          · intro k b hb x hx
            obtain ⟨h1, h2⟩ := hs2 k b hb x hx
            refine ⟨?_, h2⟩
            rcases h1 with (h1 | h1) | h1
            · exact Or.inl h1
            · exact Or.inr (h1 ▸ List.mem_cons_self n rest)
            · exact Or.inr (List.mem_cons_of_mem n h1)
          · intro x hx
            apply hc2
            rcases hx with hx | hx
            · exact Or.inl (Or.inl hx)
            · rcases List.mem_cons.mp hx with hx | hx
              · exact Or.inl (Or.inr hx)
              · exact Or.inr hx
        · -- soundness of the one-step accumulator
          intro k b hb x hx
          unfold prioritymap.bucketAdd at hb
          rw [hb0] at hb
          dsimp only at hb
          by_cases hk : k = ch
          · subst hk
            rw [alist.lookup_set_self] at hb
            obtain hbe := Option.some.inj hb
            subst hbe
            rcases (pset.mem_add b0 x n).mp hx with hx | hx
            · obtain ⟨h1, h2⟩ := hsound ch b0 hb0 x hx
              exact ⟨Or.inl h1, h2⟩
            · subst hx
              exact ⟨Or.inr rfl, rfl⟩
          · rw [alist.lookup_set_ne _ _ _ _ hk] at hb
            obtain ⟨h1, h2⟩ := hsound k b hb x hx
            exact ⟨Or.inl h1, h2⟩
        · -- completeness of the one-step accumulator
          intro x hx
          unfold prioritymap.bucketAdd
          rw [hb0]
          dsimp only
          rcases hx with hx | hx
          · obtain ⟨b, hb, hxb⟩ := hcomp x hx
            by_cases hk : alist.findInf cost x +
                ((f * h x : K) : WithTop K) = ch
            · rw [hk] at hb
              obtain hbe : b = b0 := Option.some.inj (hb.symm.trans hb0)
              subst hbe
              refine ⟨pset.add b n, ?_, (pset.mem_add b x n).mpr (Or.inl hxb)⟩
              rw [hk]
              exact alist.lookup_set_self _ _ _
            · refine ⟨b, ?_, hxb⟩
              rw [alist.lookup_set_ne _ _ _ _ hk]
              exact hb
          · subst hx
            refine ⟨pset.add b0 x, ?_, (pset.mem_add b0 x x).mpr (Or.inr rfl)⟩
            rw [← hch]
            exact alist.lookup_set_self _ _ _
      · -- fresh bucket for a new key
        simp only [hc, if_neg, Bool.not_eq_true]
        have hnone : alist.lookup acc.1.dict ch = none := by
          unfold prioritymap.contains alist.mem at hc
          rcases hl : alist.lookup acc.1.dict ch with _ | b
          · rfl
          · rw [hl] at hc; simp at hc
        have hstep := ih (acc.1.setitem ch [n], alist.set acc.2 n ch)
          (fun x => P x ∨ x = n) ?_ ?_
        · obtain ⟨hs2, hc2⟩ := hstep
          refine ⟨?_, ?_⟩
          · intro k b hb x hx
            obtain ⟨h1, h2⟩ := hs2 k b hb x hx
            refine ⟨?_, h2⟩
            rcases h1 with (h1 | h1) | h1
            · exact Or.inl h1
            · exact Or.inr (h1 ▸ List.mem_cons_self n rest)
            · exact Or.inr (List.mem_cons_of_mem n h1)
          · intro x hx
            apply hc2
            rcases hx with hx | hx
            · exact Or.inl (Or.inl hx)
            · rcases List.mem_cons.mp hx with hx | hx
              · exact Or.inl (Or.inr hx)
              · exact Or.inr hx
        · intro k b hb x hx
          unfold prioritymap.setitem at hb
          dsimp only at hb
          by_cases hk : k = ch
          · subst hk
            rw [alist.lookup_set_self] at hb
            obtain hbe := Option.some.inj hb
            subst hbe
            simp only [List.mem_singleton] at hx
            subst hx
            exact ⟨Or.inr rfl, rfl⟩
          · rw [alist.lookup_set_ne _ _ _ _ hk] at hb
            obtain ⟨h1, h2⟩ := hsound k b hb x hx
            exact ⟨Or.inl h1, h2⟩
        · intro x hx
          unfold prioritymap.setitem
          dsimp only
          rcases hx with hx | hx
          · obtain ⟨b, hb, hxb⟩ := hcomp x hx
            by_cases hk : alist.findInf cost x +
                ((f * h x : K) : WithTop K) = ch
            · rw [hk, hnone] at hb
              exact Option.noConfusion hb
            · refine ⟨b, ?_, hxb⟩
              rw [alist.lookup_set_ne _ _ _ _ hk]
              exact hb
          · subst hx
            refine ⟨[x], ?_, List.mem_singleton_self x⟩
            rw [← hch]
            exact alist.lookup_set_self _ _ _

/-- Soundness of `ara_rebuild`: every bucket member of the fresh frontier
is one of the rebuilt nodes, stored under its re-keyed priority. -/
theorem ara_rebuild_sound {α K : Type} [DecidableEq α]
    [LinearOrderedCommRing K] (h : α → K) (f : K)
    (cost : List (α × WithTop K)) (nodes : List α)
    (cwh0 : List (α × WithTop K)) :
    ∀ k b, alist.lookup (ara_rebuild h f cost nodes cwh0).1.dict k = some b →
      ∀ x ∈ b, x ∈ nodes ∧
        k = alist.findInf cost x + ((f * h x : K) : WithTop K) := by
  have hmain := ara_rebuild_fold_inv h f cost nodes
    (prioritymap.empty (WithTop K) (List α), cwh0) (fun _ => False)
    (fun k b hb => by simp [prioritymap.empty, alist.lookup] at hb)
    (fun x hx => absurd hx not_false)
  intro k b hb x hx
  obtain ⟨h1, h2⟩ := hmain.1 k b hb x hx
  exact ⟨h1.resolve_left id, h2⟩

/-- Completeness of `ara_rebuild`: every rebuilt node is installed in the
fresh frontier under its re-keyed priority. -/
theorem ara_rebuild_complete {α K : Type} [DecidableEq α]
    [LinearOrderedCommRing K] (h : α → K) (f : K)
    (cost : List (α × WithTop K)) (nodes : List α)
    (cwh0 : List (α × WithTop K)) :
    ∀ x ∈ nodes, ∃ b, alist.lookup (ara_rebuild h f cost nodes cwh0).1.dict
      (alist.findInf cost x + ((f * h x : K) : WithTop K)) = some b ∧
        x ∈ b := by
  have hmain := ara_rebuild_fold_inv h f cost nodes
    (prioritymap.empty (WithTop K) (List α), cwh0) (fun _ => False)
    (fun k b hb => by simp [prioritymap.empty, alist.lookup] at hb)
    (fun x hx => absurd hx not_false)
  intro x hx
  exact hmain.2 x (Or.inr hx)

/-- C3 (amended): whenever the goal is popped and at least one inflation
factor remains after discarding the current one, every point still
resident in the frontier (the goal itself included, if it still holds a
stale second entry) is re-keyed to
`g-cost(point) + (next factor) * heuristic(point)` and installed into a
freshly built frontier, and the goal's neighbors are not expanded in that
iteration.  The goal is therefore re-inserted exactly when it still
resides in the frontier (see the counterexample); the claim's "the goal
point itself is not re-inserted" fails in that case. -/
theorem C3_goal_pop_rebuilds_frontier {α K : Type} [DecidableEq α]
    [LinearOrderedCommRing K] (gn : α → List α) (gd : α → α → K)
    (h : α → K) (start target : α) (st : AraState α K) (f0 f1 : K)
    (frest : List K) (k0 : WithTop K) (bucketRest : List α) (p : List α)
    (hsize : ¬ st.to_search.size = 0)
    (hfac : st.factors = f0 :: f1 :: frest)
    (hmin : st.to_search.minEntry = Except.ok (k0, target :: bucketRest))
    (hbp : build_path st.prev start target = some p) :
    (ara_step gn gd h start target st).2 = true ∧
      (ara_step gn gd h start target st).1.neighborLog = st.neighborLog ∧
      (ara_step gn gd h start target st).1.factors = f1 :: frest ∧
      (ara_step gn gd h start target st).1.cost = st.cost ∧
      (∀ k b, alist.lookup
          (ara_step gn gd h start target st).1.to_search.dict k = some b →
        ∀ x ∈ b,
          x ∈ (pm_drain_min st.to_search k0 bucketRest).values.flatten ∧
            k = alist.findInf st.cost x + ((f1 * h x : K) : WithTop K)) ∧
      (∀ x, x ∈ (pm_drain_min st.to_search k0 bucketRest).values.flatten →
        ∃ b, alist.lookup
            (ara_step gn gd h start target st).1.to_search.dict
            (alist.findInf st.cost x + ((f1 * h x : K) : WithTop K)) =
          some b ∧ x ∈ b) := by
  have hstep : ∃ bc ys rec,
      ara_step gn gd h start target st =
        ({ to_search := (ara_rebuild h f1 st.cost
              ((pm_drain_min st.to_search k0 bucketRest).values.flatten)
              st.cost_with_heuristic).1
           factors := f1 :: frest
           prev := st.prev
           cost := st.cost
           cost_with_heuristic := (ara_rebuild h f1 st.cost
              ((pm_drain_min st.to_search k0 bucketRest).values.flatten)
              st.cost_with_heuristic).2
           best_cost := bc
           yields := ys
           recorded := rec
           neighborLog := st.neighborLog }, true) := by
    unfold ara_step
    rw [if_neg hsize, hfac, hmin]
    dsimp only
    rw [if_pos rfl]
    by_cases hyb : alist.findInf st.cost target < st.best_cost
    · rw [if_pos hyb, hbp]
      exact ⟨alist.findInf st.cost target, st.yields ++ [p],
        st.recorded ++ [alist.findInf st.cost target], rfl⟩
    · rw [if_neg hyb]
      exact ⟨st.best_cost, st.yields, st.recorded, rfl⟩
  obtain ⟨bc, ys, rec, hst⟩ := hstep
  rw [hst]
  refine ⟨rfl, rfl, rfl, rfl, ?_, ?_⟩
  · exact ara_rebuild_sound h f1 st.cost _ st.cost_with_heuristic
  · exact ara_rebuild_complete h f1 st.cost _ st.cost_with_heuristic

/-- C3 counterexample graph: `0 → {2, 1}`, `1 → {2}` with goal 2; the
direct edge `0→2` costs 10 while `0→1→2` costs 2, so the goal enters the
frontier under the stale key 10 and again under the key 2. -/
def nbC3 : ℕ → List ℕ := fun u =>
  if u = 0 then [2, 1] else if u = 1 then [2] else []

/-- C3 counterexample edge costs. -/
def dC3 : ℕ → ℕ → ℤ := fun u v =>
  if u = 0 ∧ v = 2 then 10 else if u = 0 ∧ v = 1 then 1
  else if u = 1 ∧ v = 2 then 1 else 0

/-- C3 counterexample heuristic: identically zero. -/
def hC3 : ℕ → ℤ := fun _ => 0

/-- C3 counterexample: after two iterations the goal 2 is about to be
popped (minimum bucket `(2, [2])`) with two factors remaining; the next
iteration discards the first factor and rebuilds the frontier — and the
goal, still resident under its stale key 10, is re-keyed and re-inserted
into the fresh frontier, contradicting "the goal point itself is not
re-inserted". -/
theorem C3_counterexample :
    (ara_loop nbC3 dC3 hC3 0 2 2 (ara_init hC3 [2, 1] 0)).to_search.minEntry
        = Except.ok ((2 : WithTop ℤ), [2]) ∧
      (ara_loop nbC3 dC3 hC3 0 2 2 (ara_init hC3 [2, 1] 0)).factors =
        [(2 : ℤ), 1] ∧
      (ara_loop nbC3 dC3 hC3 0 2 3 (ara_init hC3 [2, 1] 0)).factors =
        [(1 : ℤ)] ∧
      (ara_loop nbC3 dC3 hC3 0 2 3 (ara_init hC3 [2, 1] 0)).to_search.getitem
        ((2 : ℤ) : WithTop ℤ) = some [2] ∧
      (ara_loop nbC3 dC3 hC3 0 2 3 (ara_init hC3 [2, 1] 0)).yields =
        [[0, 1, 2]] := by
  refine ⟨rfl, by decide, by decide, by decide, by decide⟩

/-- Witness for the amended C3 at the counterexample state where the goal
is popped with a factor remaining. -/
theorem C3_goal_pop_rebuilds_frontier_witness :
    (ara_step nbC3 dC3 hC3 0 2
        (ara_loop nbC3 dC3 hC3 0 2 2 (ara_init hC3 [2, 1] 0))).2 = true ∧
      (ara_step nbC3 dC3 hC3 0 2
          (ara_loop nbC3 dC3 hC3 0 2 2 (ara_init hC3 [2, 1] 0))).1.neighborLog =
        (ara_loop nbC3 dC3 hC3 0 2 2 (ara_init hC3 [2, 1] 0)).neighborLog ∧
      (ara_step nbC3 dC3 hC3 0 2
          (ara_loop nbC3 dC3 hC3 0 2 2 (ara_init hC3 [2, 1] 0))).1.factors =
        [(1 : ℤ)] ∧
      (ara_step nbC3 dC3 hC3 0 2
          (ara_loop nbC3 dC3 hC3 0 2 2 (ara_init hC3 [2, 1] 0))).1.cost =
        (ara_loop nbC3 dC3 hC3 0 2 2 (ara_init hC3 [2, 1] 0)).cost ∧
      (∀ k b, alist.lookup
          (ara_step nbC3 dC3 hC3 0 2
            (ara_loop nbC3 dC3 hC3 0 2 2
              (ara_init hC3 [2, 1] 0))).1.to_search.dict k = some b →
        ∀ x ∈ b,
          x ∈ (pm_drain_min
              (ara_loop nbC3 dC3 hC3 0 2 2 (ara_init hC3 [2, 1] 0)).to_search
              ((2 : ℤ) : WithTop ℤ) []).values.flatten ∧
            k = alist.findInf
                (ara_loop nbC3 dC3 hC3 0 2 2 (ara_init hC3 [2, 1] 0)).cost x +
              (((1 : ℤ) * hC3 x : ℤ) : WithTop ℤ)) ∧
      (∀ x, x ∈ (pm_drain_min
            (ara_loop nbC3 dC3 hC3 0 2 2 (ara_init hC3 [2, 1] 0)).to_search
            ((2 : ℤ) : WithTop ℤ) []).values.flatten →
        ∃ b, alist.lookup
            (ara_step nbC3 dC3 hC3 0 2
              (ara_loop nbC3 dC3 hC3 0 2 2
                (ara_init hC3 [2, 1] 0))).1.to_search.dict
            (alist.findInf
                (ara_loop nbC3 dC3 hC3 0 2 2 (ara_init hC3 [2, 1] 0)).cost x +
              (((1 : ℤ) * hC3 x : ℤ) : WithTop ℤ)) = some b ∧ x ∈ b) :=
  C3_goal_pop_rebuilds_frontier nbC3 dC3 hC3 0 2
    (ara_loop nbC3 dC3 hC3 0 2 2 (ara_init hC3 [2, 1] 0)) 2 1 [] 2 []
    [0, 1, 2] (by decide) (by decide) rfl (by decide)

/-! ## C1 (amended): a_star optimality under a consistent heuristic

The remainder of the development proves the amended C1: with non-negative
edge costs and a *consistent* heuristic (and no `max_cost`), every path
returned by `a_star` is a valid start-to-goal path of minimal total edge
cost.  The proof maintains a loop invariant over the translated state:
frontier heap/dictionary synchronization, exact keyed entries for every
unfinalized finite-cost point, grounded predecessor chains, and optimality
plus full relaxation of every finalized point. -/

/-! ## Further association-list, set and heap lemmas -/

theorem alist.findInf_set_self {α K : Type} [DecidableEq α]
    (l : List (α × WithTop K)) (k : α) (v : WithTop K) :
    alist.findInf (alist.set l k v) k = v := by
  unfold alist.findInf
  rw [alist.lookup_set_self]

theorem alist.findInf_set_ne {α K : Type} [DecidableEq α]
    (l : List (α × WithTop K)) (k k2 : α) (v : WithTop K) (hne : k2 ≠ k) :
    alist.findInf (alist.set l k v) k2 = alist.findInf l k2 := by
  unfold alist.findInf
  rw [alist.lookup_set_ne l k k2 v hne]

theorem alist.lookup_isSome_iff_mem_keys {κ α : Type} [DecidableEq κ]
    (l : List (κ × α)) (k : κ) :
    (alist.lookup l k).isSome = true ↔ k ∈ l.map Prod.fst := by
  induction l with
  | nil => simp [alist.lookup]
  | cons p rest ih =>
      rcases p with ⟨k', v'⟩
      unfold alist.lookup
      by_cases h : k = k'
      · simp [h]
      · simp [h, ih]

theorem alist.map_fst_set_mem {κ α : Type} [DecidableEq κ]
    (l : List (κ × α)) (k : κ) (v : α) (hk : k ∈ l.map Prod.fst) :
    (alist.set l k v).map Prod.fst = l.map Prod.fst := by
  induction l with
  | nil => simp at hk
  | cons p rest ih =>
      rcases p with ⟨k', v'⟩
      unfold alist.set
      by_cases h : k = k'
      · simp [h]
      · simp only [List.map_cons] at hk
        rcases List.mem_cons.mp hk with hk | hk
        · exact absurd hk h
        · simp [h, ih hk]

theorem alist.map_fst_set_notmem {κ α : Type} [DecidableEq κ]
    (l : List (κ × α)) (k : κ) (v : α) (hk : k ∉ l.map Prod.fst) :
    (alist.set l k v).map Prod.fst = l.map Prod.fst ++ [k] := by
  induction l with
  | nil => simp [alist.set]
  | cons p rest ih =>
      rcases p with ⟨k', v'⟩
      simp only [List.map_cons, List.mem_cons, not_or] at hk
      unfold alist.set
      rw [if_neg hk.1]
      simp [ih hk.2]

theorem alist.lookup_erase_self {κ α : Type} [DecidableEq κ]
    (l : List (κ × α)) (k : κ) (hnd : (l.map Prod.fst).Nodup) :
    alist.lookup (alist.erase l k) k = none := by
  induction l with
  | nil => simp [alist.erase, alist.lookup]
  | cons p rest ih =>
      rcases p with ⟨k', v'⟩
      simp only [List.map_cons, List.nodup_cons] at hnd
      unfold alist.erase
      by_cases h : k = k'
      · subst h
        rw [if_pos rfl]
        cases hl : alist.lookup rest k with
        | none => rfl
        | some w =>
            exfalso
            have : k ∈ rest.map Prod.fst := by
              rw [← alist.lookup_isSome_iff_mem_keys]
              simp [hl]
            exact hnd.1 this
      · simp only [if_neg h]
        unfold alist.lookup
        rw [if_neg h]
        exact ih hnd.2

theorem alist.lookup_erase_ne {κ α : Type} [DecidableEq κ]
    (l : List (κ × α)) (k k2 : κ) (hne : k2 ≠ k) :
    alist.lookup (alist.erase l k) k2 = alist.lookup l k2 := by
  induction l with
  | nil => simp [alist.erase]
  | cons p rest ih =>
      rcases p with ⟨k', v'⟩
      unfold alist.erase
      by_cases h : k = k'
      · subst h
        rw [if_pos rfl]
        simp [alist.lookup, hne]
      · simp only [if_neg h]
        unfold alist.lookup
        by_cases h2 : k2 = k'
        · simp [h2]
        · simp only [if_neg h2]
          exact ih

theorem alist.map_fst_erase_sublist {κ α : Type} [DecidableEq κ]
    (l : List (κ × α)) (k : κ) :
    ((alist.erase l k).map Prod.fst).Sublist (l.map Prod.fst) := by
  induction l with
  | nil => simp [alist.erase]
  | cons p rest ih =>
      rcases p with ⟨k', v'⟩
      unfold alist.erase
      by_cases h : k = k'
      · simp [h]
      · simp only [if_neg h, List.map_cons]
        exact ih.cons₂ k'

theorem pset.mem_ofList {α : Type} [DecidableEq α] (l : List α) (x : α) :
    x ∈ pset.ofList l ↔ x ∈ l := by
  induction l with
  | nil => simp [pset.ofList]
  | cons y rest ih =>
      unfold pset.ofList
      by_cases h : y ∈ pset.ofList rest
      · simp only [if_pos h, List.mem_cons, ih]
        constructor
        · exact Or.inr
        · rintro (rfl | hx)
          · exact ih.mp h
          · exact hx
      · simp [h, ih]

theorem mem_heappush {κ : Type} [LinearOrder κ] (l : List κ) (k x : κ) :
    x ∈ heappush l k ↔ x ∈ l ∨ x = k := by
  induction l with
  | nil => simp [heappush]
  | cons y rest ih =>
      unfold heappush
      by_cases h : k ≤ y
      · simp only [if_pos h, List.mem_cons]
        tauto
      · simp only [if_neg h, List.mem_cons, ih]
        tauto

theorem heappush_sorted {κ : Type} [LinearOrder κ] (l : List κ) (k : κ)
    (hs : l.Sorted (· ≤ ·)) : (heappush l k).Sorted (· ≤ ·) := by
  induction l with
  | nil => simp [heappush]
  | cons y rest ih =>
      rw [List.sorted_cons] at hs
      unfold heappush
      by_cases h : k ≤ y
      · rw [if_pos h, List.sorted_cons]
        refine ⟨?_, ?_⟩
        · intro b hb
          rcases List.mem_cons.mp hb with rfl | hb
          · exact h
          · exact le_trans h (hs.1 b hb)
        · rw [List.sorted_cons]
          exact hs
      · rw [if_neg h, List.sorted_cons]
        refine ⟨?_, ih hs.2⟩
        intro b hb
        rcases (mem_heappush rest k b).mp hb with hb | rfl
        · exact hs.1 b hb
        · exact le_of_lt (not_le.mp h)

theorem heappush_nodup {κ : Type} [LinearOrder κ] (l : List κ) (k : κ)
    (hnd : l.Nodup) (hk : k ∉ l) : (heappush l k).Nodup := by
  induction l with
  | nil => simp [heappush]
  | cons y rest ih =>
      simp only [List.nodup_cons] at hnd
      simp only [List.mem_cons, not_or] at hk
      unfold heappush
      by_cases h : k ≤ y
      · rw [if_pos h, List.nodup_cons]
        refine ⟨?_, List.nodup_cons.mpr hnd⟩
        simp only [List.mem_cons, not_or]
        exact ⟨hk.1, hk.2⟩
      · rw [if_neg h, List.nodup_cons]
        refine ⟨?_, ih hnd.2 hk.2⟩
        intro hy
        rcases (mem_heappush rest k y).mp hy with hy | hy
        · exact hnd.1 hy
        · exact hk.1 hy.symm

/-! ## WithTop arithmetic helpers -/

theorem wt_cancel_right {K : Type} [LinearOrderedCommRing K]
    (a b : WithTop K) (c : K) (h : a + (c : WithTop K) ≤ b + (c : WithTop K)) :
    a ≤ b := by
  exact (WithTop.add_le_add_iff_right (WithTop.coe_ne_top (a := c))).mp h

theorem wt_ne_top_of_add_le {K : Type} [LinearOrderedCommRing K]
    (a : WithTop K) (c : K) (k : WithTop K) (hk : k ≠ ⊤)
    (h : a + (c : WithTop K) ≤ k) : a ≠ ⊤ := by
  have h1 : a + (c : WithTop K) ≠ ⊤ := ne_top_of_le_ne_top hk h
  exact (WithTop.add_ne_top.mp h1).1

theorem wt_add_coe_ne_top {K : Type} [LinearOrderedCommRing K]
    (a : WithTop K) (c : K) (ha : a ≠ ⊤) : a + (c : WithTop K) ≠ ⊤ :=
  WithTop.add_ne_top.mpr ⟨ha, WithTop.coe_ne_top⟩

/-! ## Path lemmas -/

theorem edgeSum_snoc {α K : Type} [LinearOrderedCommRing K]
    (gd : α → α → K) :
    ∀ (p : List α) (a b : α), p.getLast? = some a →
      edgeSum gd (p ++ [b]) = edgeSum gd p + gd a b := by
  intro p
  induction p with
  | nil => intro a b hl; simp at hl
  | cons x rest ih =>
      intro a b hl
      cases rest with
      | nil =>
          simp only [List.getLast?_singleton, Option.some.injEq] at hl
          subst hl
          simp [edgeSum]
      | cons y rest2 =>
          rw [List.getLast?_cons_cons] at hl
          have : edgeSum gd ((y :: rest2) ++ [b]) =
              edgeSum gd (y :: rest2) + gd a b := ih a b hl
          simp only [List.cons_append]
          rw [edgeSum, edgeSum]
          rw [List.cons_append] at this
          rw [this]
          ring

theorem chainOk_snoc {α : Type} [DecidableEq α] (gn : α → List α) :
    ∀ (p : List α) (a b : α), chainOk gn p = true → p.getLast? = some a →
      b ∈ gn a → chainOk gn (p ++ [b]) = true := by
  intro p
  induction p with
  | nil => intro a b _ hl; simp at hl
  | cons x rest ih =>
      intro a b hc hl hb
      cases rest with
      | nil =>
          simp only [List.getLast?_singleton, Option.some.injEq] at hl
          subst hl
          simp [chainOk, hb]
      | cons y rest2 =>
          rw [List.getLast?_cons_cons] at hl
          rw [chainOk, Bool.and_eq_true] at hc
          have := ih a b hc.2 hl hb
          simp only [List.cons_append] at this ⊢
          rw [chainOk, Bool.and_eq_true]
          exact ⟨hc.1, this⟩

theorem isPath_snoc {α : Type} [DecidableEq α] (gn : α → List α)
    (start a b : α) (p : List α) (hp : isPath gn start a p = true)
    (hb : b ∈ gn a) : isPath gn start b (p ++ [b]) = true := by
  cases p with
  | nil => simp [isPath] at hp
  | cons x rest =>
      rw [isPath, Bool.and_eq_true, Bool.and_eq_true, decide_eq_true_eq,
        decide_eq_true_eq] at hp
      obtain ⟨⟨hx, hlast⟩, hchain⟩ := hp
      have hcons : (x :: rest) ++ [b] = x :: (rest ++ [b]) := by simp
      rw [hcons, isPath, Bool.and_eq_true, Bool.and_eq_true]
      refine ⟨⟨by simp [hx], ?_⟩, ?_⟩
      · rw [decide_eq_true_eq, ← hcons, List.getLast?_concat]
      · rw [← hcons]
        exact chainOk_snoc gn (x :: rest) a b hchain hlast hb

theorem isPath_singleton {α : Type} [DecidableEq α] (gn : α → List α)
    (start : α) : isPath gn start start [start] = true := by
  simp [isPath, chainOk]

theorem isPath_unpack {α : Type} [DecidableEq α] (gn : α → List α)
    (start z : α) (q : List α) (hq : isPath gn start z q = true) :
    q.head? = some start ∧ q.getLast? = some z ∧ chainOk gn q = true := by
  cases q with
  | nil => simp [isPath] at hq
  | cons x rest =>
      rw [isPath, Bool.and_eq_true, Bool.and_eq_true, decide_eq_true_eq,
        decide_eq_true_eq] at hq
      obtain ⟨⟨hx, hlast⟩, hchain⟩ := hq
      exact ⟨by simp [hx], hlast, hchain⟩

/-- Telescoping consistency: along any valid chain the heuristic at the head
is at most the chain's edge cost plus the heuristic at the last point. -/
theorem heuristic_telescope {α K : Type} [DecidableEq α]
    [LinearOrderedCommRing K] (gn : α → List α) (gd : α → α → K) (h : α → K)
    (hcons : ∀ u v, v ∈ gn u → h u ≤ gd u v + h v) :
    ∀ (l : List α) (a z : α), chainOk gn (a :: l) = true →
      (a :: l).getLast? = some z → h a ≤ edgeSum gd (a :: l) + h z := by
  intro l
  induction l with
  | nil =>
      intro a z _ hl
      simp only [List.getLast?_singleton, Option.some.injEq] at hl
      subst hl
      simp [edgeSum]
  | cons b t ih =>
      intro a z hc hl
      rw [chainOk, Bool.and_eq_true, decide_eq_true_eq] at hc
      rw [List.getLast?_cons_cons] at hl
      have h1 : h a ≤ gd a b + h b := hcons a b hc.1
      have h2 : h b ≤ edgeSum gd (b :: t) + h z := ih b z hc.2 hl
      rw [edgeSum]
      linarith

/-! ## Predecessor chains -/

/-- The predecessor-map step relation: `b`'s recorded predecessor is `a`. -/
def prevStep {α : Type} [DecidableEq α] (prev : List (α × α)) (a b : α) :
    Prop :=
  alist.lookup prev b = some a

/-- A grounded predecessor chain: a duplicate-free list starting at `start`,
ending at `u`, each point recording the previous one in `prev`. -/
def PrevChain {α : Type} [DecidableEq α] (prev : List (α × α)) (start u : α)
    (p : List α) : Prop :=
  p.head? = some start ∧ p.getLast? = some u ∧ p.Nodup ∧
    List.Chain' (prevStep prev) p

theorem prevStep_set_ne {α : Type} [DecidableEq α] (prev : List (α × α))
    (n c a b : α) (hne : b ≠ n) :
    prevStep (alist.set prev n c) a b ↔ prevStep prev a b := by
  unfold prevStep
  rw [alist.lookup_set_ne prev n b c hne]

theorem chain_prevStep_set {α : Type} [DecidableEq α] (prev : List (α × α))
    (n c : α) :
    ∀ p : List α, n ∉ p.tail → List.Chain' (prevStep prev) p →
      List.Chain' (prevStep (alist.set prev n c)) p := by
  intro p
  induction p with
  | nil => intro _ _; exact List.chain'_nil
  | cons x rest ih =>
      intro hn hch
      cases rest with
      | nil => exact List.chain'_singleton x
      | cons y rest2 =>
          rw [List.chain'_cons] at hch
          simp only [List.tail_cons, List.mem_cons, not_or] at hn
          rw [List.chain'_cons]
          refine ⟨(prevStep_set_ne prev n c x y (Ne.symm hn.1)).mpr hch.1, ?_⟩
          refine ih ?_ hch.2
          simp only [List.tail_cons]
          intro hmem
          exact hn.2 hmem

theorem chain_tail_mem_keys {α : Type} [DecidableEq α] (prev : List (α × α)) :
    ∀ p : List α, List.Chain' (prevStep prev) p →
      ∀ x ∈ p.tail, x ∈ prev.map Prod.fst := by
  intro p
  induction p with
  | nil => intro _ x hx; simp at hx
  | cons a rest ih =>
      intro hch x hx
      cases rest with
      | nil => simp at hx
      | cons y rest2 =>
          rw [List.chain'_cons] at hch
          simp only [List.tail_cons, List.mem_cons] at hx
          rcases hx with rfl | hx
          · rw [← alist.lookup_isSome_iff_mem_keys]
            unfold prevStep at hch
            simp [hch.1]
          · exact ih hch.2 x (by simpa using hx)

theorem nodup_length_le_keys {α : Type} [DecidableEq α] (l m : List α)
    (hnd : l.Nodup) (hsub : ∀ x ∈ l, x ∈ m) : l.length ≤ m.length := by
  calc l.length = l.toFinset.card := (List.toFinset_card_of_nodup hnd).symm
  _ ≤ m.toFinset.card := Finset.card_le_card (fun x hx => by
      rw [List.mem_toFinset] at hx ⊢
      exact hsub x hx)
  _ ≤ m.length := m.toFinset_card_le

theorem prevChain_length_le {α : Type} [DecidableEq α] (prev : List (α × α))
    (start u : α) (p : List α) (hpc : PrevChain prev start u p) :
    p.length ≤ prev.length + 1 := by
  obtain ⟨hh, _, hnd, hch⟩ := hpc
  cases p with
  | nil => simp
  | cons x rest =>
      have hsub : ∀ y ∈ rest, y ∈ prev.map Prod.fst := by
        intro y hy
        exact chain_tail_mem_keys prev (x :: rest) hch y (by simpa using hy)
      have : rest.length ≤ (prev.map Prod.fst).length :=
        nodup_length_le_keys rest (prev.map Prod.fst)
          (List.nodup_cons.mp hnd).2 hsub
      simp only [List.length_map] at this
      simp only [List.length_cons]
      omega

theorem nodup_head_last_eq {α : Type} (s : α) :
    ∀ p : List α, p.Nodup → p.head? = some s → p.getLast? = some s →
      p = [s] := by
  intro p
  cases p with
  | nil => intro _ h _; simp at h
  | cons x rest =>
      intro hnd hh hl
      simp only [List.head?_cons, Option.some.injEq] at hh
      subst hh
      cases rest with
      | nil => rfl
      | cons y rest2 =>
          exfalso
          rw [List.getLast?_cons_cons] at hl
          have hmem : x ∈ y :: rest2 := List.mem_of_mem_getLast? hl
          exact (List.nodup_cons.mp hnd).1 hmem

/-- With enough fuel, `build_path_aux` reconstructs exactly the grounded
predecessor chain. -/
theorem build_path_aux_of_chain {α : Type} [DecidableEq α]
    (prev : List (α × α)) (start : α) (p : List α) :
    ∀ (u : α) (fuel : ℕ), PrevChain prev start u p → p.length ≤ fuel →
      build_path_aux prev start fuel u = some p := by
  induction p using List.reverseRecOn with
  | nil =>
      intro u fuel hpc _
      obtain ⟨hh, _, _, _⟩ := hpc
      simp at hh
  | append_singleton q b ih =>
      intro u fuel hpc hlen
      obtain ⟨hh, hl, hnd, hch⟩ := hpc
      have hub : u = b := by
        rw [List.getLast?_concat] at hl
        exact (Option.some.inj hl).symm
      subst hub
      cases q with
      | nil =>
          simp only [List.nil_append, List.head?_cons, Option.some.injEq] at hh
          subst hh
          cases fuel with
          | zero => simp at hlen
          | succ f =>
              rw [build_path_aux]
              rw [if_pos rfl]
              rfl
      | cons x q2 =>
          have hq_ne : x :: q2 ≠ ([] : List α) := by simp
          have hh' : (x :: q2).head? = some start := by
            rw [List.head?_append_of_ne_nil (x :: q2) hq_ne] at hh
            exact hh
          have hstart_mem : start ∈ x :: q2 := by
            simp only [List.head?_cons, Option.some.injEq] at hh'
            subst hh'
            exact List.mem_cons_self x q2
          have hnd' := List.nodup_append.mp hnd
          have hu_ne : u ≠ start := by
            intro he
            subst he
            exact (hnd'.2.2 hstart_mem (List.mem_singleton_self u)).elim
          have hlast_q : (x :: q2).getLast? =
              some ((x :: q2).getLast hq_ne) :=
            List.getLast?_eq_getLast_of_ne_nil hq_ne
          have hlink : prevStep prev ((x :: q2).getLast hq_ne) u := by
            have := (List.chain'_append.mp hch).2.2
            exact this _ (by rw [hlast_q]; rfl) u rfl
          cases fuel with
          | zero => simp at hlen
          | succ f =>
              have hlen' : (x :: q2).length ≤ f := by
                simp only [List.length_append, List.length_cons,
                  List.length_singleton] at hlen ⊢
                omega
              have hrec := ih ((x :: q2).getLast hq_ne) f
                ⟨hh', hlast_q, hnd'.1, (List.chain'_append.mp hch).1⟩ hlen'
              rw [build_path_aux]
              rw [if_neg hu_ne]
              unfold prevStep at hlink
              rw [hlink]
              show (build_path_aux prev start f
                ((x :: q2).getLast hq_ne)).map (fun r => r ++ [u]) =
                  some (x :: q2 ++ [u])
              rw [hrec]
              rfl

/-- `build_path` reconstructs every grounded predecessor chain. -/
theorem build_path_of_chain {α : Type} [DecidableEq α]
    (prev : List (α × α)) (start u : α) (p : List α)
    (hpc : PrevChain prev start u p) :
    build_path prev start u = some p := by
  unfold build_path
  exact build_path_aux_of_chain prev start p u (prev.length + 1) hpc
    (prevChain_length_le prev start u p hpc)

/-- Every predecessor chain is a `chainOk` chain of the neighbor relation
when the predecessor map only records neighbor edges. -/
theorem prevchain_chainOk {α : Type} [DecidableEq α] (gn : α → List α)
    (prev : List (α × α))
    (hprev : ∀ u v, alist.lookup prev u = some v → u ∈ gn v) :
    ∀ p : List α, List.Chain' (prevStep prev) p → chainOk gn p = true := by
  intro p
  induction p with
  | nil => intro _; rfl
  | cons x rest ih =>
      intro hch
      cases rest with
      | nil => rfl
      | cons y rest2 =>
          rw [List.chain'_cons] at hch
          rw [chainOk, Bool.and_eq_true, decide_eq_true_eq]
          exact ⟨hprev y x hch.1, ih hch.2⟩

/-- Telescoping the per-edge cost inequality along a predecessor chain. -/
theorem prevchain_cost_telescope {α K : Type} [DecidableEq α]
    [LinearOrderedCommRing K] (gd : α → α → K) (prev : List (α × α))
    (costm : List (α × WithTop K))
    (hprev : ∀ u v, alist.lookup prev u = some v →
      alist.findInf costm v + ((gd v u : K) : WithTop K) ≤
        alist.findInf costm u) :
    ∀ (p : List α) (a z : α), p.head? = some a → p.getLast? = some z →
      List.Chain' (prevStep prev) p →
      alist.findInf costm a + ((edgeSum gd p : K) : WithTop K) ≤
        alist.findInf costm z := by
  intro p
  induction p with
  | nil => intro a z hh _ _; simp at hh
  | cons x rest ih =>
      intro a z hh hl hch
      simp only [List.head?_cons, Option.some.injEq] at hh
      subst hh
      cases rest with
      | nil =>
          simp only [List.getLast?_singleton, Option.some.injEq] at hl
          subst hl
          simp [edgeSum]
      | cons y rest2 =>
          rw [List.getLast?_cons_cons] at hl
          rw [List.chain'_cons] at hch
          have h1 : alist.findInf costm x + ((gd x y : K) : WithTop K) ≤
              alist.findInf costm y := hprev y x hch.1
          have h2 : alist.findInf costm y +
              ((edgeSum gd (y :: rest2) : K) : WithTop K) ≤
              alist.findInf costm z := ih y z rfl hl hch.2
          rw [edgeSum]
          push_cast
          calc alist.findInf costm x + ((gd x y : K) +
                ((edgeSum gd (y :: rest2) : K) : WithTop K))
              = (alist.findInf costm x + ((gd x y : K) : WithTop K)) +
                ((edgeSum gd (y :: rest2) : K) : WithTop K) := by
                rw [add_assoc]
          _ ≤ alist.findInf costm y +
                ((edgeSum gd (y :: rest2) : K) : WithTop K) :=
              add_le_add_right h1 _
          _ ≤ alist.findInf costm z := h2

/-- Along a predecessor chain the stored cost is monotone: every element's
cost is at most the last element's cost. -/
theorem prevchain_cost_mono {α K : Type} [DecidableEq α]
    [LinearOrderedCommRing K] (prev : List (α × α))
    (costm : List (α × WithTop K))
    (hstep : ∀ a b, prevStep prev a b →
      alist.findInf costm a ≤ alist.findInf costm b) :
    ∀ (p : List α) (z : α), p.getLast? = some z →
      List.Chain' (prevStep prev) p →
      ∀ x ∈ p, alist.findInf costm x ≤ alist.findInf costm z := by
  intro p
  induction p with
  | nil => intro z _ _ x hx; simp at hx
  | cons a rest ih =>
      intro z hl hch x hx
      cases rest with
      | nil =>
          simp only [List.getLast?_singleton, Option.some.injEq] at hl
          subst hl
          simp only [List.mem_singleton] at hx
          subst hx
          exact le_refl _
      | cons y rest2 =>
          rw [List.getLast?_cons_cons] at hl
          rw [List.chain'_cons] at hch
          rcases List.mem_cons.mp hx with rfl | hx
          · have h1 : alist.findInf costm x ≤ alist.findInf costm y :=
              hstep x y hch.1
            have h2 : alist.findInf costm y ≤ alist.findInf costm z :=
              ih z hl hch.2 y (List.mem_cons_self y rest2)
            exact le_trans h1 h2
          · exact ih z hl hch.2 x hx

/-- Along a predecessor chain the head's cost is a lower bound for every
element's cost. -/
theorem prevchain_cost_head_min {α K : Type} [DecidableEq α]
    [LinearOrderedCommRing K] (prev : List (α × α))
    (costm : List (α × WithTop K))
    (hstep : ∀ a b, prevStep prev a b →
      alist.findInf costm a ≤ alist.findInf costm b) :
    ∀ (p : List α) (a : α), p.head? = some a →
      List.Chain' (prevStep prev) p →
      ∀ x ∈ p, alist.findInf costm a ≤ alist.findInf costm x := by
  intro p
  induction p with
  | nil => intro a _ _ x hx; simp at hx
  | cons w rest ih =>
      intro a hh hch x hx
      simp only [List.head?_cons, Option.some.injEq] at hh
      subst hh
      rcases List.mem_cons.mp hx with rfl | hx
      · exact le_refl _
      cases rest with
      | nil => simp at hx
      | cons y rest2 =>
          rw [List.chain'_cons] at hch
          have h1 : alist.findInf costm w ≤ alist.findInf costm y :=
            hstep w y hch.1
          have h2 : alist.findInf costm y ≤ alist.findInf costm x :=
            ih y rfl hch.2 x hx
          exact le_trans h1 h2

/-! ## Rerouting predecessor chains through an improved node -/

theorem wt_le_add_coe {K : Type} [LinearOrderedCommRing K] (a : WithTop K)
    (c : K) (hc : 0 ≤ c) : a ≤ a + (c : WithTop K) := by
  have h0 : (0 : WithTop K) ≤ (c : WithTop K) := by exact_mod_cast hc
  calc a = a + 0 := (add_zero a).symm
  _ ≤ a + (c : WithTop K) := add_le_add_left h0 a

/-- After improving node `n`'s cost to `calcv` with predecessor `c`, every
node of finite cost still has a grounded predecessor chain. -/
theorem prevchain_update {α K : Type} [DecidableEq α]
    [LinearOrderedCommRing K] (gd : α → α → K) (prev : List (α × α))
    (costm : List (α × WithTop K)) (start n c : α) (calcv : WithTop K)
    (hd : ∀ u v, 0 ≤ gd u v)
    (hprev : ∀ u v, alist.lookup prev u = some v →
      alist.findInf costm v + ((gd v u : K) : WithTop K) ≤
        alist.findInf costm u)
    (hchain : ∀ u, alist.findInf costm u ≠ ⊤ → ∃ p, PrevChain prev start u p)
    (hlt : calcv < alist.findInf costm n)
    (hcle : alist.findInf costm c ≤ calcv) :
    ∀ u, alist.findInf (alist.set costm n calcv) u ≠ ⊤ →
      ∃ p, PrevChain (alist.set prev n c) start u p := by
  have hstep : ∀ a b, prevStep prev a b →
      alist.findInf costm a ≤ alist.findInf costm b := by
    intro a b hab
    exact le_trans (wt_le_add_coe _ _ (hd a b)) (hprev b a hab)
  have hcalc_ne : calcv ≠ ⊤ := (lt_of_lt_of_le hlt le_top).ne
  have hc_ne : alist.findInf costm c ≠ ⊤ := ne_top_of_le_ne_top hcalc_ne hcle
  obtain ⟨pc, hpc⟩ := hchain c hc_ne
  obtain ⟨hpch, hpcl, hpcnd, hpcch⟩ := hpc
  have hpc_costs : ∀ x ∈ pc, alist.findInf costm x ≤ alist.findInf costm c :=
    prevchain_cost_mono prev costm hstep pc c hpcl hpcch
  have hn_pc : n ∉ pc := by
    intro hin
    have h1 := hpc_costs n hin
    exact absurd (lt_of_le_of_lt (le_trans h1 hcle) hlt) (lt_irrefl _)
  have hpcch' : List.Chain' (prevStep (alist.set prev n c)) pc :=
    chain_prevStep_set prev n c pc
      (fun hmem => hn_pc (List.mem_of_mem_tail hmem)) hpcch
  have hpc_ne_nil : pc ≠ [] := by
    intro he
    rw [he] at hpch
    simp at hpch
  intro u hu
  by_cases hun : u = n
  · subst hun
    refine ⟨pc ++ [u], ?_, List.getLast?_concat pc, nodup_snoc hn_pc hpcnd, ?_⟩
    · rw [List.head?_append_of_ne_nil pc hpc_ne_nil]
      exact hpch
    · rw [List.chain'_append]
      refine ⟨hpcch', List.chain'_singleton u, ?_⟩
      intro x hx y hy
      rw [hpcl] at hx
      simp only [Option.mem_def, List.head?_cons, Option.some.injEq] at hx hy
      subst hx
      subst hy
      unfold prevStep
      exact alist.lookup_set_self prev u c
  · have hu' : alist.findInf costm u ≠ ⊤ := by
      rw [alist.findInf_set_ne costm n u calcv hun] at hu
      exact hu
    obtain ⟨p, hp⟩ := hchain u hu'
    obtain ⟨hph, hpl, hpnd, hpch2⟩ := hp
    by_cases hnp : n ∈ p
    · obtain ⟨p1, p2, rfl⟩ := List.append_of_mem hnp
      have hp2_ne : p2 ≠ [] := by
        intro he
        subst he
        rw [List.getLast?_concat] at hpl
        exact hun (Option.some.inj hpl).symm
      have hnd_split := List.nodup_append.mp hpnd
      have hn_p2 : n ∉ p2 := (List.nodup_cons.mp hnd_split.2.1).1
      have hch_split := List.chain'_append.mp hpch2
      have hch_np2 : List.Chain' (prevStep prev) (n :: p2) := hch_split.2.1
      have hch_np2' : List.Chain' (prevStep (alist.set prev n c)) (n :: p2) :=
        chain_prevStep_set prev n c (n :: p2) (by simpa using hn_p2) hch_np2
      have hsuffix : ∀ x ∈ n :: p2,
          alist.findInf costm n ≤ alist.findInf costm x :=
        prevchain_cost_head_min prev costm hstep (n :: p2) n rfl hch_np2
      have hdisj : pc.Disjoint (n :: p2) := by
        intro x hx1 hx2
        rcases List.mem_cons.mp hx2 with rfl | hx2
        · exact hn_pc hx1
        · have h1 : alist.findInf costm x ≤ alist.findInf costm c :=
            hpc_costs x hx1
          have h2 : alist.findInf costm n ≤ alist.findInf costm x :=
            hsuffix x (List.mem_cons_of_mem n hx2)
          exact absurd (lt_of_le_of_lt (le_trans h2 (le_trans h1 hcle)) hlt)
            (lt_irrefl _)
      refine ⟨pc ++ (n :: p2), ?_, ?_, ?_, ?_⟩
      · rw [List.head?_append_of_ne_nil pc hpc_ne_nil]
        exact hpch
      · rw [List.getLast?_append_of_ne_nil pc (by simp)]
        rw [List.getLast?_append_of_ne_nil p1 (by simp)] at hpl
        exact hpl
      · exact List.nodup_append.mpr ⟨hpcnd, hnd_split.2.1, hdisj⟩
      · rw [List.chain'_append]
        refine ⟨hpcch', hch_np2', ?_⟩
        intro x hx y hy
        rw [hpcl] at hx
        simp only [Option.mem_def, List.head?_cons, Option.some.injEq] at hx hy
        subst hx
        subst hy
        unfold prevStep
        exact alist.lookup_set_self prev n c
    · exact ⟨p, hph, hpl, hpnd,
        chain_prevStep_set prev n c p
          (fun hm => hnp (List.mem_of_mem_tail hm)) hpch2⟩

/-! ## The a_star loop invariant -/

/-- Frontier-and-cost invariant of the `a_star` loop, independent of the
`searched` set: the heap is a sorted duplicate-free key list in sync with
the bucket dictionary, every bucket key bounds its members' keyed costs
from below, keys are finite, the start has cost `0`, costs are nonnegative,
the predecessor map records neighbor edges consistent with the cost map,
and every finite-cost node has a grounded predecessor chain. -/
structure AFront {α K : Type} [DecidableEq α] [LinearOrderedCommRing K]
    (gn : α → List α) (gd : α → α → K) (h : α → K) (start : α)
    (st : AStarState α K) : Prop where
  hsorted : st.to_search.heap.Sorted (· ≤ ·)
  hheapnd : st.to_search.heap.Nodup
  hkeysnd : (st.to_search.dict.map Prod.fst).Nodup
  hsync : ∀ k, k ∈ st.to_search.heap ↔
    (alist.lookup st.to_search.dict k).isSome = true
  hkeyLB : ∀ k b, alist.lookup st.to_search.dict k = some b →
    ∀ x ∈ b, alist.findInf st.cost x + ((h x : K) : WithTop K) ≤ k
  hkeyfin : ∀ k ∈ st.to_search.heap, k ≠ (⊤ : WithTop K)
  hcost0 : alist.findInf st.cost start = 0
  hcostnn : ∀ u, 0 ≤ alist.findInf st.cost u
  hprev : ∀ u v, alist.lookup st.prev u = some v → u ∈ gn v ∧
    alist.findInf st.cost v + ((gd v u : K) : WithTop K) ≤
      alist.findInf st.cost u
  hchain : ∀ u, alist.findInf st.cost u ≠ ⊤ →
    ∃ p, PrevChain st.prev start u p

/-- Every node outside `S` with a finite cost has a live frontier bucket
entry stored under exactly its keyed cost. -/
def AEntry {α K : Type} [DecidableEq α] [LinearOrderedCommRing K]
    (h : α → K) (S : List α) (st : AStarState α K) : Prop :=
  ∀ u, u ∉ S → alist.findInf st.cost u ≠ ⊤ →
    ∃ b, alist.lookup st.to_search.dict
      (alist.findInf st.cost u + ((h u : K) : WithTop K)) = some b ∧ u ∈ b

/-- Every node of `S` has a stored cost below every valid path's cost. -/
def ASopt {α K : Type} [DecidableEq α] [LinearOrderedCommRing K]
    (gn : α → List α) (gd : α → α → K) (start : α) (S : List α)
    (st : AStarState α K) : Prop :=
  ∀ w ∈ S, ∀ q, isPath gn start w q = true →
    alist.findInf st.cost w ≤ ((edgeSum gd q : K) : WithTop K)

/-- Every node of `S` has been fully relaxed towards its neighbors. -/
def ARelax {α K : Type} [DecidableEq α] [LinearOrderedCommRing K]
    (gn : α → List α) (gd : α → α → K) (S : List α)
    (st : AStarState α K) : Prop :=
  ∀ w ∈ S, ∀ n ∈ gn w, n ∈ S ∨
    alist.findInf st.cost n ≤
      alist.findInf st.cost w + ((gd w n : K) : WithTop K)

/-- Full loop invariant of `a_star`, over the state's own `searched` set. -/
def AInv {α K : Type} [DecidableEq α] [LinearOrderedCommRing K]
    (gn : α → List α) (gd : α → α → K) (h : α → K) (start : α)
    (st : AStarState α K) : Prop :=
  AFront gn gd h start st ∧ AEntry h st.searched st ∧
    ASopt gn gd start st.searched st ∧ ARelax gn gd st.searched st

/-- Closed form of one neighbor relaxation with `max_cost = None`. -/
theorem relax_one_eq {α K : Type} [DecidableEq α] [LinearOrderedCommRing K]
    (gd : α → α → K) (h : α → K) (current : α) (st : AStarState α K)
    (n : α) :
    relax_one gd h none current st n =
      if alist.findInf st.cost current + ((gd current n : K) : WithTop K) <
          alist.findInf st.cost n then
        if st.to_search.contains
            (alist.findInf st.cost current + ((gd current n : K) : WithTop K)
              + ((h n : K) : WithTop K)) then
          { st with
            distLog := st.distLog ++ [(current, n)],
            prev := alist.set st.prev n current,
            cost := alist.set st.cost n (alist.findInf st.cost current +
              ((gd current n : K) : WithTop K)),
            heurLog := st.heurLog ++ [n],
            cost_with_heuristic := alist.set st.cost_with_heuristic n
              (alist.findInf st.cost current +
                ((gd current n : K) : WithTop K) + ((h n : K) : WithTop K)),
            to_search := st.to_search.bucketAdd
              (alist.findInf st.cost current +
                ((gd current n : K) : WithTop K) + ((h n : K) : WithTop K))
              n }
        else
          { st with
            distLog := st.distLog ++ [(current, n)],
            prev := alist.set st.prev n current,
            cost := alist.set st.cost n (alist.findInf st.cost current +
              ((gd current n : K) : WithTop K)),
            heurLog := st.heurLog ++ [n],
            cost_with_heuristic := alist.set st.cost_with_heuristic n
              (alist.findInf st.cost current +
                ((gd current n : K) : WithTop K) + ((h n : K) : WithTop K)),
            to_search := st.to_search.setitem
              (alist.findInf st.cost current +
                ((gd current n : K) : WithTop K) + ((h n : K) : WithTop K))
              [n] }
      else { st with distLog := st.distLog ++ [(current, n)] } := rfl

/-- One neighbor relaxation preserves the loop invariant pieces and only
improves costs; the relaxed neighbor ends up bounded by the expanding
node's cost plus the edge cost. -/
theorem relax_one_pres {α K : Type} [DecidableEq α] [LinearOrderedCommRing K]
    (gn : α → List α) (gd : α → α → K) (h : α → K) (start current : α)
    (S S' : List α) (st : AStarState α K) (n : α)
    (hd : ∀ u v, 0 ≤ gd u v)
    (hF : AFront gn gd h start st)
    (hE : AEntry h S' st) (hO : ASopt gn gd start S' st)
    (hR : ARelax gn gd S st)
    (hS' : ∀ w, w ∈ S' ↔ (w ∈ S ∨ w = current))
    (hn_nb : n ∈ gn current) (hn_ns : n ∉ S) :
    AFront gn gd h start (relax_one gd h none current st n) ∧
    AEntry h S' (relax_one gd h none current st n) ∧
    ASopt gn gd start S' (relax_one gd h none current st n) ∧
    ARelax gn gd S (relax_one gd h none current st n) ∧
    (relax_one gd h none current st n).searched = st.searched ∧
    (∀ u, alist.findInf (relax_one gd h none current st n).cost u ≤
      alist.findInf st.cost u) ∧
    (alist.findInf (relax_one gd h none current st n).cost n ≤
      alist.findInf st.cost current + ((gd current n : K) : WithTop K)) ∧
    (alist.findInf (relax_one gd h none current st n).cost current =
      alist.findInf st.cost current) := by
  rw [relax_one_eq]
  by_cases hlt : alist.findInf st.cost current +
      ((gd current n : K) : WithTop K) < alist.findInf st.cost n
  case neg =>
    rw [if_neg hlt]
    exact ⟨⟨hF.hsorted, hF.hheapnd, hF.hkeysnd, hF.hsync, hF.hkeyLB,
      hF.hkeyfin, hF.hcost0, hF.hcostnn, hF.hprev, hF.hchain⟩, hE, hO, hR,
      rfl, fun u => le_refl _, not_lt.mp hlt, rfl⟩
  case pos =>
    rw [if_pos hlt]
    have hd_nn : (0 : WithTop K) ≤ ((gd current n : K) : WithTop K) := by
      exact_mod_cast hd current n
    have hnn_calc : (0 : WithTop K) ≤ alist.findInf st.cost current +
        ((gd current n : K) : WithTop K) :=
      add_nonneg (hF.hcostnn current) hd_nn
    have hne_cur : n ≠ current := by
      intro he
      rw [he] at hlt
      exact absurd hlt (not_lt.mpr (wt_le_add_coe _ _ (hd current current)))
    have hne_start : n ≠ start := by
      intro he
      have h0 : alist.findInf st.cost n = 0 := by rw [he, hF.hcost0]
      rw [h0] at hlt
      exact absurd hlt (not_lt.mpr hnn_calc)
    have hcalc_ne : alist.findInf st.cost current +
        ((gd current n : K) : WithTop K) ≠ ⊤ :=
      (lt_of_lt_of_le hlt le_top).ne
    have hcwh_ne : alist.findInf st.cost current +
        ((gd current n : K) : WithTop K) + ((h n : K) : WithTop K) ≠ ⊤ :=
      wt_add_coe_ne_top _ _ hcalc_ne
    have hcn : alist.findInf (alist.set st.cost n
        (alist.findInf st.cost current + ((gd current n : K) : WithTop K))) n
        = alist.findInf st.cost current + ((gd current n : K) : WithTop K) :=
      alist.findInf_set_self st.cost n _
    have hceq : ∀ u, u ≠ n → alist.findInf (alist.set st.cost n
        (alist.findInf st.cost current + ((gd current n : K) : WithTop K))) u
        = alist.findInf st.cost u :=
      fun u hu => alist.findInf_set_ne st.cost n u _ hu
    have hdec : ∀ u, alist.findInf (alist.set st.cost n
        (alist.findInf st.cost current + ((gd current n : K) : WithTop K))) u
        ≤ alist.findInf st.cost u := by
      intro u
      by_cases hu : u = n
      · subst hu
        rw [hcn]
        exact le_of_lt hlt
      · rw [hceq u hu]
    have hS'_ne_n : ∀ w, w ∈ S' → w ≠ n := by
      intro w hw
      rcases (hS' w).mp hw with hw | rfl
      · intro he
        subst he
        exact hn_ns hw
      · exact fun he => hne_cur he.symm
    have hcost0' : alist.findInf (alist.set st.cost n
        (alist.findInf st.cost current + ((gd current n : K) : WithTop K)))
        start = 0 := by
      rw [hceq start (fun he => hne_start he.symm)]
      exact hF.hcost0
    have hcostnn' : ∀ u, (0 : WithTop K) ≤ alist.findInf (alist.set st.cost n
        (alist.findInf st.cost current + ((gd current n : K) : WithTop K)))
        u := by
      intro u
      by_cases hu : u = n
      · subst hu
        rw [hcn]
        exact hnn_calc
      · rw [hceq u hu]
        exact hF.hcostnn u
    have hprev' : ∀ u v, alist.lookup (alist.set st.prev n current) u =
        some v → u ∈ gn v ∧ alist.findInf (alist.set st.cost n
          (alist.findInf st.cost current +
            ((gd current n : K) : WithTop K))) v +
          ((gd v u : K) : WithTop K) ≤ alist.findInf (alist.set st.cost n
          (alist.findInf st.cost current +
            ((gd current n : K) : WithTop K))) u := by
      intro u v hl
      by_cases hu : u = n
      · subst hu
        rw [alist.lookup_set_self] at hl
        have hv : v = current := (Option.some.inj hl).symm
        subst hv
        refine ⟨hn_nb, ?_⟩
        rw [hcn, hceq v (fun he => hne_cur he.symm)]
      · rw [alist.lookup_set_ne st.prev n u current hu] at hl
        obtain ⟨hmem, hle⟩ := hF.hprev u v hl
        refine ⟨hmem, ?_⟩
        rw [hceq u hu]
        calc alist.findInf (alist.set st.cost n
              (alist.findInf st.cost current +
                ((gd current n : K) : WithTop K))) v +
            ((gd v u : K) : WithTop K)
            ≤ alist.findInf st.cost v + ((gd v u : K) : WithTop K) :=
              add_le_add_right (hdec v) _
        _ ≤ alist.findInf st.cost u := hle
    have hchain' : ∀ u, alist.findInf (alist.set st.cost n
        (alist.findInf st.cost current + ((gd current n : K) : WithTop K)))
        u ≠ ⊤ → ∃ p, PrevChain (alist.set st.prev n current) start u p :=
      prevchain_update gd st.prev st.cost start n current _ hd
        (fun u v hl => (hF.hprev u v hl).2) hF.hchain hlt
        (wt_le_add_coe _ _ (hd current n))
    have hO' : ∀ (stc : List (α × WithTop K)), (∀ w, w ∈ S' →
        alist.findInf stc w = alist.findInf st.cost w) →
        ASopt gn gd start S'
          { st with
            distLog := st.distLog ++ [(current, n)]
            prev := alist.set st.prev n current
            cost := stc
            heurLog := st.heurLog ++ [n]
            cost_with_heuristic := alist.set st.cost_with_heuristic n
              (alist.findInf st.cost current +
                ((gd current n : K) : WithTop K) + ((h n : K) : WithTop K))
            to_search := st.to_search } := by
      intro stc hfr w hw q hq
      have : alist.findInf stc w = alist.findInf st.cost w := hfr w hw
      dsimp only
      rw [this]
      exact hO w hw q hq
    by_cases hcont : st.to_search.contains
        (alist.findInf st.cost current + ((gd current n : K) : WithTop K)
          + ((h n : K) : WithTop K)) = true
    case pos =>
      rw [if_pos hcont]
      have hbsome : (alist.lookup st.to_search.dict
          (alist.findInf st.cost current + ((gd current n : K) : WithTop K)
            + ((h n : K) : WithTop K))).isSome = true := hcont
      obtain ⟨b0, hb0⟩ := Option.isSome_iff_exists.mp hbsome
      have hba : st.to_search.bucketAdd
          (alist.findInf st.cost current + ((gd current n : K) : WithTop K)
            + ((h n : K) : WithTop K)) n =
          { st.to_search with
            dict := alist.set st.to_search.dict
              (alist.findInf st.cost current +
                ((gd current n : K) : WithTop K)
                + ((h n : K) : WithTop K)) (pset.add b0 n) } := by
        unfold prioritymap.bucketAdd
        rw [hb0]
      rw [hba]
      have hkmem : (alist.findInf st.cost current +
          ((gd current n : K) : WithTop K) + ((h n : K) : WithTop K)) ∈
          st.to_search.dict.map Prod.fst :=
        (alist.lookup_isSome_iff_mem_keys _ _).mp hbsome
      have hdict : ∀ k, alist.lookup (alist.set st.to_search.dict
          (alist.findInf st.cost current + ((gd current n : K) : WithTop K)
            + ((h n : K) : WithTop K)) (pset.add b0 n)) k =
          if k = alist.findInf st.cost current +
              ((gd current n : K) : WithTop K) + ((h n : K) : WithTop K)
          then some (pset.add b0 n) else alist.lookup st.to_search.dict k := by
        intro k
        by_cases hk : k = alist.findInf st.cost current +
            ((gd current n : K) : WithTop K) + ((h n : K) : WithTop K)
        · rw [if_pos hk, hk, alist.lookup_set_self]
        · rw [if_neg hk, alist.lookup_set_ne _ _ _ _ hk]
      refine ⟨⟨hF.hsorted, hF.hheapnd, ?_, ?_, ?_, hF.hkeyfin, hcost0',
        hcostnn', hprev', hchain'⟩, ?_, ?_, ?_, rfl, hdec, le_of_eq hcn,
        hceq current (fun he => hne_cur he.symm)⟩
      · dsimp only
        rw [alist.map_fst_set_mem _ _ _ hkmem]
        exact hF.hkeysnd
      · intro k
        dsimp only
        rw [hdict k]
        by_cases hk : k = alist.findInf st.cost current +
            ((gd current n : K) : WithTop K) + ((h n : K) : WithTop K)
        · rw [if_pos hk]
          simp only [Option.isSome_some]
          refine iff_of_true ?_ trivial
          rw [hk]
          exact (hF.hsync _).mpr hbsome
        · rw [if_neg hk]
          exact hF.hsync k
      · intro k b hkb x hx
        dsimp only at hkb ⊢
        rw [hdict k] at hkb
        by_cases hk : k = alist.findInf st.cost current +
            ((gd current n : K) : WithTop K) + ((h n : K) : WithTop K)
        · rw [if_pos hk] at hkb
          have hb : b = pset.add b0 n := (Option.some.inj hkb).symm
          subst hb
          rcases (pset.mem_add b0 x n).mp hx with hx | rfl
          · calc alist.findInf (alist.set st.cost n
                  (alist.findInf st.cost current +
                    ((gd current n : K) : WithTop K))) x +
                ((h x : K) : WithTop K)
                ≤ alist.findInf st.cost x + ((h x : K) : WithTop K) :=
                  add_le_add_right (hdec x) _
            _ ≤ k := hF.hkeyLB _ b0 (by rw [← hk] at hb0; exact hb0) x hx
          · rw [hcn, hk]
        · rw [if_neg hk] at hkb
          calc alist.findInf (alist.set st.cost n
                (alist.findInf st.cost current +
                  ((gd current n : K) : WithTop K))) x +
              ((h x : K) : WithTop K)
              ≤ alist.findInf st.cost x + ((h x : K) : WithTop K) :=
                add_le_add_right (hdec x) _
          _ ≤ k := hF.hkeyLB k b hkb x hx
      · -- AEntry
        intro u hu hfin
        dsimp only at hfin ⊢
        by_cases hun : u = n
        · subst hun
          refine ⟨pset.add b0 u, ?_, (pset.mem_add b0 u u).mpr (Or.inr rfl)⟩
          rw [hdict, hcn, if_pos rfl]
        · rw [hceq u hun] at hfin ⊢
          obtain ⟨b, hb, hub⟩ := hE u hu hfin
          by_cases hk : alist.findInf st.cost u + ((h u : K) : WithTop K) =
              alist.findInf st.cost current +
                ((gd current n : K) : WithTop K) + ((h n : K) : WithTop K)
          · refine ⟨pset.add b0 n, ?_, ?_⟩
            · rw [hdict, if_pos hk]
            · have hbb0 : b = b0 := by
                rw [hk] at hb
                exact Option.some.inj (hb.symm.trans hb0)
              subst hbb0
              exact (pset.mem_add b u n).mpr (Or.inl hub)
          · refine ⟨b, ?_, hub⟩
            rw [hdict, if_neg hk]
            exact hb
      · -- ASopt
        exact hO' _ (fun w hw => hceq w (hS'_ne_n w hw))
      · -- ARelax
        intro w hw m hm
        rcases hR w hw m hm with hin | hle
        · exact Or.inl hin
        · refine Or.inr ?_
          dsimp only
          have hwn : w ≠ n := fun he => hn_ns (he ▸ hw)
          rw [hceq w hwn]
          exact le_trans (hdec m) hle
    case neg =>
      rw [if_neg hcont]
      have hsi : st.to_search.setitem
          (alist.findInf st.cost current + ((gd current n : K) : WithTop K)
            + ((h n : K) : WithTop K)) [n] =
          { heap := heappush st.to_search.heap
              (alist.findInf st.cost current +
                ((gd current n : K) : WithTop K) + ((h n : K) : WithTop K))
            dict := alist.set st.to_search.dict
              (alist.findInf st.cost current +
                ((gd current n : K) : WithTop K) + ((h n : K) : WithTop K))
              [n] } := rfl
      rw [hsi]
      have hbnone : alist.lookup st.to_search.dict
          (alist.findInf st.cost current + ((gd current n : K) : WithTop K)
            + ((h n : K) : WithTop K)) = none :=
        Option.not_isSome_iff_eq_none.mp (fun hs => hcont hs)
      have hknmem : (alist.findInf st.cost current +
          ((gd current n : K) : WithTop K) + ((h n : K) : WithTop K)) ∉
          st.to_search.dict.map Prod.fst := by
        rw [← alist.lookup_isSome_iff_mem_keys]
        rw [hbnone]
        simp
      have hkheap : (alist.findInf st.cost current +
          ((gd current n : K) : WithTop K) + ((h n : K) : WithTop K)) ∉
          st.to_search.heap := by
        intro hmem
        have := (hF.hsync _).mp hmem
        rw [hbnone] at this
        simp at this
      have hdict : ∀ k, alist.lookup (alist.set st.to_search.dict
          (alist.findInf st.cost current + ((gd current n : K) : WithTop K)
            + ((h n : K) : WithTop K)) [n]) k =
          if k = alist.findInf st.cost current +
              ((gd current n : K) : WithTop K) + ((h n : K) : WithTop K)
          then some [n] else alist.lookup st.to_search.dict k := by
        intro k
        by_cases hk : k = alist.findInf st.cost current +
            ((gd current n : K) : WithTop K) + ((h n : K) : WithTop K)
        · rw [if_pos hk, hk, alist.lookup_set_self]
        · rw [if_neg hk, alist.lookup_set_ne _ _ _ _ hk]
      refine ⟨⟨?_, ?_, ?_, ?_, ?_, ?_, hcost0',
        hcostnn', hprev', hchain'⟩, ?_, ?_, ?_, rfl, hdec, le_of_eq hcn,
        hceq current (fun he => hne_cur he.symm)⟩
      · exact heappush_sorted _ _ hF.hsorted
      · exact heappush_nodup _ _ hF.hheapnd hkheap
      · dsimp only
        rw [alist.map_fst_set_notmem _ _ _ hknmem]
        exact nodup_snoc hknmem hF.hkeysnd
      · intro k
        dsimp only
        rw [hdict k]
        by_cases hk : k = alist.findInf st.cost current +
            ((gd current n : K) : WithTop K) + ((h n : K) : WithTop K)
        · rw [if_pos hk]
          simp only [Option.isSome_some]
          refine iff_of_true ?_ trivial
          rw [mem_heappush]
          exact Or.inr hk
        · rw [if_neg hk]
          rw [mem_heappush]
          constructor
          · rintro (hm | rfl)
            · exact (hF.hsync k).mp hm
            · exact absurd rfl hk
          · intro hs
            exact Or.inl ((hF.hsync k).mpr hs)
      · intro k b hkb x hx
        dsimp only at hkb ⊢
        rw [hdict k] at hkb
        by_cases hk : k = alist.findInf st.cost current +
            ((gd current n : K) : WithTop K) + ((h n : K) : WithTop K)
        · rw [if_pos hk] at hkb
          have hb : b = [n] := (Option.some.inj hkb).symm
          subst hb
          rcases List.mem_singleton.mp hx with rfl
          rw [hcn, hk]
        · rw [if_neg hk] at hkb
          calc alist.findInf (alist.set st.cost n
                (alist.findInf st.cost current +
                  ((gd current n : K) : WithTop K))) x +
              ((h x : K) : WithTop K)
              ≤ alist.findInf st.cost x + ((h x : K) : WithTop K) :=
                add_le_add_right (hdec x) _
          _ ≤ k := hF.hkeyLB k b hkb x hx
      · intro k hkm
        dsimp only at hkm
        rcases (mem_heappush _ _ k).mp hkm with hm | rfl
        · exact hF.hkeyfin k hm
        · exact hcwh_ne
      · -- AEntry
        intro u hu hfin
        dsimp only at hfin ⊢
        by_cases hun : u = n
        · subst hun
          refine ⟨[u], ?_, List.mem_singleton_self u⟩
          rw [hdict, hcn, if_pos rfl]
        · rw [hceq u hun] at hfin ⊢
          obtain ⟨b, hb, hub⟩ := hE u hu hfin
          refine ⟨b, ?_, hub⟩
          rw [hdict]
          rw [if_neg ?_]
          · exact hb
          · intro hk
            rw [hk, hbnone] at hb
            exact Option.noConfusion hb
      · -- ASopt
        exact hO' _ (fun w hw => hceq w (hS'_ne_n w hw))
      · -- ARelax
        intro w hw m hm
        rcases hR w hw m hm with hin | hle
        · exact Or.inl hin
        · refine Or.inr ?_
          dsimp only
          have hwn : w ≠ n := fun he => hn_ns (he ▸ hw)
          rw [hceq w hwn]
          exact le_trans (hdec m) hle

/-- Folding relaxation over a neighbor list preserves the invariant pieces,
freezes the expanding node's cost, and leaves every processed neighbor
relaxed. -/
theorem foldl_relax_pres {α K : Type} [DecidableEq α]
    [LinearOrderedCommRing K] (gn : α → List α) (gd : α → α → K)
    (h : α → K) (start current : α) (S S' : List α)
    (hd : ∀ u v, 0 ≤ gd u v)
    (hS' : ∀ w, w ∈ S' ↔ (w ∈ S ∨ w = current)) :
    ∀ (l : List α) (st : AStarState α K),
      AFront gn gd h start st → AEntry h S' st → ASopt gn gd start S' st →
      ARelax gn gd S st →
      (∀ x ∈ l, x ∈ gn current ∧ x ∉ S) →
      AFront gn gd h start (l.foldl (relax_one gd h none current) st) ∧
      AEntry h S' (l.foldl (relax_one gd h none current) st) ∧
      ASopt gn gd start S' (l.foldl (relax_one gd h none current) st) ∧
      ARelax gn gd S (l.foldl (relax_one gd h none current) st) ∧
      (l.foldl (relax_one gd h none current) st).searched = st.searched ∧
      (∀ u, alist.findInf
        (l.foldl (relax_one gd h none current) st).cost u ≤
        alist.findInf st.cost u) ∧
      (alist.findInf (l.foldl (relax_one gd h none current) st).cost
        current = alist.findInf st.cost current) ∧
      (∀ x ∈ l, alist.findInf
          (l.foldl (relax_one gd h none current) st).cost x ≤
        alist.findInf (l.foldl (relax_one gd h none current) st).cost
          current + ((gd current x : K) : WithTop K)) := by
  intro l
  induction l with
  | nil =>
      intro st hF hE hO hR _
      exact ⟨hF, hE, hO, hR, rfl, fun u => le_refl _, rfl,
        fun x hx => absurd hx (List.not_mem_nil x)⟩
  | cons x t ih =>
      intro st hF hE hO hR hl
      have hx := hl x (List.mem_cons_self x t)
      obtain ⟨hF1, hE1, hO1, hR1, hs1, hdec1, hbnd1, hcur1⟩ :=
        relax_one_pres gn gd h start current S S' st x hd hF hE hO hR hS'
          hx.1 hx.2
      have hl' : ∀ y ∈ t, y ∈ gn current ∧ y ∉ S :=
        fun y hy => hl y (List.mem_cons_of_mem x hy)
      obtain ⟨hF2, hE2, hO2, hR2, hs2, hdec2, hcur2, hbnd2⟩ :=
        ih (relax_one gd h none current st x) hF1 hE1 hO1 hR1 hl'
      rw [List.foldl_cons]
      refine ⟨hF2, hE2, hO2, hR2, hs2.trans hs1,
        fun u => le_trans (hdec2 u) (hdec1 u), hcur2.trans hcur1, ?_⟩
      intro y hy
      rcases List.mem_cons.mp hy with rfl | hy
      · refine le_trans (hdec2 y) (le_trans hbnd1 ?_)
        rw [hcur2.trans hcur1]
      · exact hbnd2 y hy

/-! ## Removing the popped point from the frontier -/

theorem alist.keysnd_set {κ α : Type} [DecidableEq κ] (l : List (κ × α))
    (k : κ) (v : α) (hnd : (l.map Prod.fst).Nodup) :
    ((alist.set l k v).map Prod.fst).Nodup := by
  by_cases hk : k ∈ l.map Prod.fst
  · rw [alist.map_fst_set_mem l k v hk]
    exact hnd
  · rw [alist.map_fst_set_notmem l k v hk]
    exact nodup_snoc hk hnd

/-- Closed form of the minimum-bucket drain. -/
theorem pm_drain_min_eq {α K : Type} [DecidableEq α]
    [LinearOrderedCommRing K] (pm : prioritymap (WithTop K) (List α))
    (k0 : WithTop K) (heapRest : List (WithTop K)) (bucketRest : List α)
    (hheap : pm.heap = k0 :: heapRest) :
    pm_drain_min pm k0 bucketRest =
      if bucketRest.length = 0 then
        ⟨heapRest, alist.erase (alist.set pm.dict k0 bucketRest) k0⟩
      else ⟨pm.heap, alist.set pm.dict k0 bucketRest⟩ := by
  unfold pm_drain_min
  by_cases hlen : bucketRest.length = 0
  · rw [if_pos hlen, if_pos hlen]
    unfold prioritymap.pop
    dsimp only
    rw [hheap]
    dsimp only
    rw [alist.lookup_set_self]
  · rw [if_neg hlen, if_neg hlen]

/-- Heap of the drained frontier. -/
theorem pm_drain_heap {α K : Type} [DecidableEq α] [LinearOrderedCommRing K]
    (pm : prioritymap (WithTop K) (List α)) (k0 : WithTop K)
    (heapRest : List (WithTop K)) (bucketRest : List α)
    (hheap : pm.heap = k0 :: heapRest) :
    (pm_drain_min pm k0 bucketRest).heap =
      if bucketRest.length = 0 then heapRest else pm.heap := by
  rw [pm_drain_min_eq pm k0 heapRest bucketRest hheap]
  split_ifs <;> rfl

/-- Dictionary lookups in the drained frontier. -/
theorem pm_drain_lookup {α K : Type} [DecidableEq α]
    [LinearOrderedCommRing K] (pm : prioritymap (WithTop K) (List α))
    (k0 : WithTop K) (heapRest : List (WithTop K)) (bucketRest : List α)
    (hheap : pm.heap = k0 :: heapRest)
    (hkeysnd : (pm.dict.map Prod.fst).Nodup) :
    ∀ k, alist.lookup (pm_drain_min pm k0 bucketRest).dict k =
      if k = k0 then
        (if bucketRest.length = 0 then none else some bucketRest)
      else alist.lookup pm.dict k := by
  intro k
  rw [pm_drain_min_eq pm k0 heapRest bucketRest hheap]
  by_cases hlen : bucketRest.length = 0
  · rw [if_pos hlen]
    dsimp only
    by_cases hk : k = k0
    · rw [if_pos hk, if_pos hlen, hk]
      exact alist.lookup_erase_self _ k0 (alist.keysnd_set _ _ _ hkeysnd)
    · rw [if_neg hk]
      rw [alist.lookup_erase_ne _ k0 k hk]
      exact alist.lookup_set_ne _ _ _ _ hk
  · rw [if_neg hlen]
    dsimp only
    by_cases hk : k = k0
    · rw [if_pos hk, if_neg hlen, hk]
      exact alist.lookup_set_self _ _ _
    · rw [if_neg hk]
      exact alist.lookup_set_ne _ _ _ _ hk

/-- Draining the popped point from the minimum bucket preserves the
frontier invariant and the entry invariant for every set containing the
popped point. -/
theorem drain_pres {α K : Type} [DecidableEq α] [LinearOrderedCommRing K]
    (gn : α → List α) (gd : α → α → K) (h : α → K) (start : α)
    (st : AStarState α K) (S' : List α) (k0 : WithTop K) (current : α)
    (bucketRest : List α) (heapRest : List (WithTop K))
    (hF : AFront gn gd h start st)
    (hheap : st.to_search.heap = k0 :: heapRest)
    (hb : alist.lookup st.to_search.dict k0 = some (current :: bucketRest))
    (hE : AEntry h S' st) (hcur : current ∈ S') :
    AFront gn gd h start
      { st with to_search := pm_drain_min st.to_search k0 bucketRest } ∧
    AEntry h S'
      { st with to_search := pm_drain_min st.to_search k0 bucketRest } := by
  have hheapC := pm_drain_heap st.to_search k0 heapRest bucketRest hheap
  have hlookC := pm_drain_lookup st.to_search k0 heapRest bucketRest hheap
    hF.hkeysnd
  have hk0_notin : k0 ∉ heapRest := by
    have := hF.hheapnd
    rw [hheap] at this
    exact (List.nodup_cons.mp this).1
  have hsorted_rest : heapRest.Sorted (· ≤ ·) := by
    have := hF.hsorted
    rw [hheap] at this
    exact (List.sorted_cons.mp this).2
  have hnd_rest : heapRest.Nodup := by
    have := hF.hheapnd
    rw [hheap] at this
    exact (List.nodup_cons.mp this).2
  constructor
  · refine ⟨?_, ?_, ?_, ?_, ?_, ?_, hF.hcost0, hF.hcostnn, hF.hprev,
      hF.hchain⟩
    · dsimp only
      rw [hheapC]
      split_ifs
      · exact hsorted_rest
      · exact hF.hsorted
    · dsimp only
      rw [hheapC]
      split_ifs
      · exact hnd_rest
      · exact hF.hheapnd
    · dsimp only
      rw [pm_drain_min_eq st.to_search k0 heapRest bucketRest hheap]
      split_ifs
      · exact (alist.keysnd_set _ _ _ hF.hkeysnd).sublist
          (alist.map_fst_erase_sublist _ k0)
      · exact alist.keysnd_set _ _ _ hF.hkeysnd
    · intro k
      dsimp only
      rw [hheapC, hlookC k]
      by_cases hk : k = k0
      · rw [if_pos hk]
        split_ifs with hlen
        · subst hk
          refine iff_of_false hk0_notin ?_
          simp
        · refine iff_of_true ?_ rfl
          rw [hk, hheap]
          exact List.mem_cons_self k0 heapRest
      · rw [if_neg hk]
        split_ifs with hlen
        · constructor
          · intro hm
            have hk2 : k ∈ st.to_search.heap := by
              rw [hheap]
              exact List.mem_cons_of_mem k0 hm
            exact (hF.hsync k).mp hk2
          · intro hs
            have := (hF.hsync k).mpr hs
            rw [hheap] at this
            rcases List.mem_cons.mp this with he | hm
            · exact absurd he hk
            · exact hm
        · exact hF.hsync k
    · intro k b hkb x hx
      dsimp only at hkb ⊢
      rw [hlookC k] at hkb
      by_cases hk : k = k0
      · rw [if_pos hk] at hkb
        by_cases hlen : bucketRest.length = 0
        · rw [if_pos hlen] at hkb
          exact Option.noConfusion hkb
        · rw [if_neg hlen] at hkb
          have hbb : bucketRest = b := Option.some.inj hkb
          rw [hk]
          rw [← hbb] at hx
          exact hF.hkeyLB k0 (current :: bucketRest) hb x
            (List.mem_cons_of_mem current hx)

      · rw [if_neg hk] at hkb
        exact hF.hkeyLB k b hkb x hx
    · intro k hk
      dsimp only at hk
      rw [hheapC] at hk
      have hk' : k ∈ st.to_search.heap := by
        by_cases hlen : bucketRest.length = 0
        · rw [if_pos hlen] at hk
          rw [hheap]
          exact List.mem_cons_of_mem k0 hk
        · rw [if_neg hlen] at hk
          exact hk
      exact hF.hkeyfin k hk'
  · intro u hu hfin
    dsimp only at hfin ⊢
    have hucur : u ≠ current := fun he => hu (he ▸ hcur)
    obtain ⟨bu, hbu, hub⟩ := hE u hu hfin
    rw [hlookC]
    by_cases hk : alist.findInf st.cost u + ((h u : K) : WithTop K) = k0
    · rw [if_pos hk]
      rw [hk] at hbu
      have hbb : bu = current :: bucketRest := Option.some.inj
        (hbu.symm.trans hb)
      subst hbb
      rcases List.mem_cons.mp hub with he | hm
      · exact absurd he hucur
      · have hlen : ¬ bucketRest.length = 0 := by
          intro hl
          rw [List.length_eq_zero] at hl
          rw [hl] at hm
          exact absurd hm (List.not_mem_nil u)
        rw [if_neg hlen]
        exact ⟨bucketRest, rfl, hm⟩
    · rw [if_neg hk]
      exact ⟨bu, hbu, hub⟩

/-! ## The expansion bound: a popped node's cost undercuts every path -/

/-- Walking any valid chain from a node `a` whose cost is already covered,
either the chain's endpoint cost is bounded by the total path cost, or the
chain leaves the finalized set at a node whose keyed cost is bounded by the
path cost plus the endpoint heuristic. -/
theorem path_switchover {α K : Type} [DecidableEq α]
    [LinearOrderedCommRing K] (gn : α → List α) (gd : α → α → K)
    (h : α → K) (start : α) (S : List α) (st : AStarState α K)
    (hcons : ∀ u v, v ∈ gn u → h u ≤ gd u v + h v)
    (hO : ASopt gn gd start S st) (hR : ARelax gn gd S st) :
    ∀ (rest : List α) (z a : α) (p : List α),
      isPath gn start a p = true →
      alist.findInf st.cost a ≤ ((edgeSum gd p : K) : WithTop K) →
      chainOk gn (a :: rest) = true →
      (a :: rest).getLast? = some z →
      alist.findInf st.cost z ≤
        ((edgeSum gd p + edgeSum gd (a :: rest) : K) : WithTop K) ∨
      ∃ v, v ∉ S ∧ alist.findInf st.cost v ≠ ⊤ ∧
        alist.findInf st.cost v + ((h v : K) : WithTop K) ≤
          ((edgeSum gd p + edgeSum gd (a :: rest) + h z : K) : WithTop K) := by
  intro rest
  induction rest with
  | nil =>
      intro z a p hpa hca _ hiz
      simp only [List.getLast?_singleton, Option.some.injEq] at hiz
      subst hiz
      refine Or.inl ?_
      rw [show edgeSum gd [a] = (0 : K) from rfl, add_zero]
      exact hca
  | cons b rest2 ih =>
      intro z a p hpa hca hch hiz
      rw [chainOk, Bool.and_eq_true, decide_eq_true_eq] at hch
      obtain ⟨hab, hbc⟩ := hch
      rw [List.getLast?_cons_cons] at hiz
      have hlast : p.getLast? = some a := (isPath_unpack gn start a p hpa).2.1
      have hsnoc : edgeSum gd (p ++ [b]) = edgeSum gd p + gd a b :=
        edgeSum_snoc gd p a b hlast
      have hsum : edgeSum gd (p ++ [b]) + edgeSum gd (b :: rest2) =
          edgeSum gd p + edgeSum gd (a :: b :: rest2) := by
        rw [hsnoc, show edgeSum gd (a :: b :: rest2) =
          gd a b + edgeSum gd (b :: rest2) from rfl]
        ring
      by_cases haS : a ∈ S
      · have hb_cost : alist.findInf st.cost b ≤
            ((edgeSum gd (p ++ [b]) : K) : WithTop K) := by
          rcases hR a haS b hab with hbS | hle
          · exact hO b hbS (p ++ [b]) (isPath_snoc gn start a b p hpa hab)
          · rw [hsnoc, WithTop.coe_add]
            exact hle.trans (add_le_add_right hca _)
        have hIH := ih z b (p ++ [b])
          (isPath_snoc gn start a b p hpa hab) hb_cost hbc hiz
        rcases hIH with hL | ⟨v, hv1, hv2, hv3⟩
        · refine Or.inl ?_
          rw [← hsum]
          exact hL
        · refine Or.inr ⟨v, hv1, hv2, ?_⟩
          have he : edgeSum gd (p ++ [b]) + edgeSum gd (b :: rest2) + h z =
              edgeSum gd p + edgeSum gd (a :: b :: rest2) + h z := by
            rw [hsum]
          rw [← he]
          exact hv3
      · refine Or.inr ⟨a, haS, ?_, ?_⟩
        · exact ne_top_of_le_ne_top WithTop.coe_ne_top hca
        · have htel : h a ≤ edgeSum gd (a :: b :: rest2) + h z :=
            heuristic_telescope gn gd h hcons (b :: rest2) a z
              (by rw [chainOk, Bool.and_eq_true, decide_eq_true_eq]
                  exact ⟨hab, hbc⟩)
              (by rw [List.getLast?_cons_cons]; exact hiz)
          have hb1 : alist.findInf st.cost a + ((h a : K) : WithTop K) ≤
              ((edgeSum gd p : K) : WithTop K) +
                ((edgeSum gd (a :: b :: rest2) + h z : K) : WithTop K) :=
            add_le_add hca (by exact_mod_cast htel)
          rw [← WithTop.coe_add] at hb1
          have he : edgeSum gd p + (edgeSum gd (a :: b :: rest2) + h z) =
              edgeSum gd p + edgeSum gd (a :: b :: rest2) + h z := by ring
          rw [he] at hb1
          exact hb1

/-- When a point is popped from the frontier minimum, its stored cost is at
most the total edge cost of every valid path reaching it. -/
theorem pop_node_optimal {α K : Type} [DecidableEq α]
    [LinearOrderedCommRing K] (gn : α → List α) (gd : α → α → K)
    (h : α → K) (start : α) (S : List α) (st : AStarState α K)
    (k0 : WithTop K) (current : α) (bucket : List α)
    (heapRest : List (WithTop K))
    (hcons : ∀ u v, v ∈ gn u → h u ≤ gd u v + h v)
    (hF : AFront gn gd h start st)
    (hE : AEntry h S st) (hO : ASopt gn gd start S st)
    (hR : ARelax gn gd S st)
    (hheap : st.to_search.heap = k0 :: heapRest)
    (hb : alist.lookup st.to_search.dict k0 = some bucket)
    (hcur : current ∈ bucket) :
    ∀ q, isPath gn start current q = true →
      alist.findInf st.cost current ≤ ((edgeSum gd q : K) : WithTop K) := by
  intro q hq
  obtain ⟨hqh, hql, hqc⟩ := isPath_unpack gn start current q hq
  cases q with
  | nil => simp at hqh
  | cons x qrest =>
      have hx : x = start := by simpa using hqh
      subst hx
      have hp0 : isPath gn x x [x] = true := isPath_singleton gn x
      have hc0 : alist.findInf st.cost x ≤
          ((edgeSum gd [x] : K) : WithTop K) := by
        rw [hF.hcost0, show edgeSum gd [x] = (0 : K) from rfl,
          WithTop.coe_zero]
      have hres := path_switchover gn gd h x S st hcons hO hR qrest
        current x [x] hp0 hc0 hqc hql
      have hz : edgeSum gd [x] + edgeSum gd (x :: qrest) =
          edgeSum gd (x :: qrest) := by
        rw [show edgeSum gd [x] = (0 : K) from rfl, zero_add]
      rcases hres with hL | ⟨v, hvS, hvfin, hvb⟩
      · rw [hz] at hL
        exact hL
      · obtain ⟨bv, hbv, hvbv⟩ := hE v hvS hvfin
        have hkv_mem : (alist.findInf st.cost v + ((h v : K) : WithTop K)) ∈
            st.to_search.heap :=
          (hF.hsync _).mpr (by rw [hbv]; rfl)
        have hk0_le : k0 ≤ alist.findInf st.cost v +
            ((h v : K) : WithTop K) := by
          rw [hheap] at hkv_mem
          rcases List.mem_cons.mp hkv_mem with he | hm
          · exact le_of_eq he.symm
          · have hs := hF.hsorted
            rw [hheap] at hs
            exact (List.sorted_cons.mp hs).1 _ hm
        have hcb : alist.findInf st.cost current +
            ((h current : K) : WithTop K) ≤ k0 :=
          hF.hkeyLB k0 bucket hb current hcur
        have hchain_le : alist.findInf st.cost current +
            ((h current : K) : WithTop K) ≤
            ((edgeSum gd (x :: qrest) + h current : K) : WithTop K) := by
          rw [hz] at hvb
          exact le_trans hcb (le_trans hk0_le hvb)
        rw [WithTop.coe_add] at hchain_le
        exact wt_cancel_right _ _ _ hchain_le

theorem isPath_of_parts {α : Type} [DecidableEq α] (gn : α → List α)
    (start z : α) (p : List α) (hh : p.head? = some start)
    (hl : p.getLast? = some z) (hc : chainOk gn p = true) :
    isPath gn start z p = true := by
  cases p with
  | nil => simp at hh
  | cons x rest =>
      simp only [List.head?_cons, Option.some.injEq] at hh
      rw [isPath, Bool.and_eq_true, Bool.and_eq_true, decide_eq_true_eq,
        decide_eq_true_eq]
      exact ⟨⟨hh, hl⟩, hc⟩

/-- One loop iteration of `a_star` with `max_cost = None` preserves the
invariant when it continues, and returns an optimal valid path when it
returns `found`. -/
theorem a_star_step_opt {α K : Type} [DecidableEq α] [LinearOrderedCommRing K]
    (gn : α → List α) (gd : α → α → K) (h : α → K) (start target : α)
    (st : AStarState α K)
    (hd : ∀ u v, 0 ≤ gd u v)
    (hcons : ∀ u v, v ∈ gn u → h u ≤ gd u v + h v)
    (hinv : AInv gn gd h start st) :
    ((a_star_step gn gd h none start target st).1 = none →
      AInv gn gd h start (a_star_step gn gd h none start target st).2) ∧
    (∀ p, (a_star_step gn gd h none start target st).1 =
        some (AStarResult.found p) →
      isPath gn start target p = true ∧
      ∀ q, isPath gn start target q = true →
        edgeSum gd p ≤ edgeSum gd q) := by
  obtain ⟨hF, hE, hO, hR⟩ := hinv
  unfold a_star_step
  by_cases hsz : st.to_search.size = 0
  · rw [if_pos hsz]
    constructor
    · intro hc
      simp at hc
    · intro p hp
      simp at hp
  · rw [if_neg hsz]
    rcases hme : st.to_search.minEntry with e | ⟨k0, bucket⟩
    · constructor
      · intro hc
        simp at hc
      · intro p hp
        simp at hp
    · rcases bucket with _ | ⟨current, bucketRest⟩
      · constructor
        · intro hc
          simp at hc
        · intro p hp
          simp at hp
      · have hex : ∃ heapRest, st.to_search.heap = k0 :: heapRest ∧
            alist.lookup st.to_search.dict k0 =
              some (current :: bucketRest) := by
          unfold prioritymap.minEntry at hme
          rcases hh : st.to_search.heap with _ | ⟨k, rest⟩
          · rw [hh] at hme
            exact Except.noConfusion hme
          · rw [hh] at hme
            dsimp only at hme
            rcases hl : alist.lookup st.to_search.dict k with _ | b
            · rw [hl] at hme
              exact Except.noConfusion hme
            · rw [hl] at hme
              have hpair := Except.ok.inj hme
              rw [Prod.mk.injEq] at hpair
              refine ⟨rest, ?_, ?_⟩
              · rw [hpair.1]
              · rw [← hpair.1, hl, hpair.2]
        obtain ⟨heapRest, hheap, hbk⟩ := hex
        dsimp only
        by_cases hcur_s : current ∈ st.searched
        · rw [if_pos hcur_s]
          constructor
          · intro _
            obtain ⟨hF1, hE1⟩ := drain_pres gn gd h start st st.searched k0
              current bucketRest heapRest hF hheap hbk hE hcur_s
            exact ⟨hF1, hE1, hO, hR⟩
          · intro p hp
            simp at hp
        · rw [if_neg hcur_s]
          by_cases htgt : current = target
          · rw [if_pos htgt]
            have hfin : alist.findInf st.cost current ≠ ⊤ := by
              have hcb := hF.hkeyLB k0 (current :: bucketRest) hbk current
                (List.mem_cons_self current bucketRest)
              have hk0ne : k0 ≠ (⊤ : WithTop K) := by
                refine hF.hkeyfin k0 ?_
                rw [hheap]
                exact List.mem_cons_self k0 heapRest
              exact wt_ne_top_of_add_le _ _ k0 hk0ne hcb
            obtain ⟨pp, hpp⟩ := hF.hchain current hfin
            have hbp : build_path st.prev start current = some pp :=
              build_path_of_chain st.prev start current pp hpp
            rw [hbp]
            constructor
            · intro hc
              simp at hc
            · intro p hp
              have hpe : pp = p := by simpa using hp
              subst hpe
              obtain ⟨hph, hpl, hpnd, hpch⟩ := hpp
              have hvalid : isPath gn start target pp = true := by
                refine isPath_of_parts gn start target pp hph ?_ ?_
                · rw [htgt] at hpl
                  exact hpl
                · exact prevchain_chainOk gn st.prev
                    (fun u v hl => (hF.hprev u v hl).1) pp hpch
              refine ⟨hvalid, ?_⟩
              intro q hq
              have hup : ((edgeSum gd pp : K) : WithTop K) ≤
                  alist.findInf st.cost current := by
                have := prevchain_cost_telescope gd st.prev st.cost
                  (fun u v hl => (hF.hprev u v hl).2) pp start current
                  hph hpl hpch
                rw [hF.hcost0, zero_add] at this
                exact this
              have hdown : alist.findInf st.cost current ≤
                  ((edgeSum gd q : K) : WithTop K) := by
                refine pop_node_optimal gn gd h start st.searched st k0
                  current (current :: bucketRest) heapRest hcons hF hE hO
                  hR hheap hbk (List.mem_cons_self current bucketRest) q ?_
                rw [htgt]
                exact hq
              exact_mod_cast le_trans hup hdown
          · rw [if_neg htgt]
            constructor
            · intro _
              have hS'w : ∀ w, w ∈ st.searched ++ [current] ↔
                  (w ∈ st.searched ∨ w = current) := by
                intro w
                simp [List.mem_append]
              have hstar := pop_node_optimal gn gd h start st.searched st k0
                current (current :: bucketRest) heapRest hcons hF hE hO hR
                hheap hbk (List.mem_cons_self current bucketRest)
              have hO' : ASopt gn gd start (st.searched ++ [current]) st := by
                intro w hw q hq
                rcases (hS'w w).mp hw with hws | rfl
                · exact hO w hws q hq
                · exact hstar q hq
              have hE' : AEntry h (st.searched ++ [current]) st :=
                fun u hu hf =>
                  hE u (fun hm => hu ((hS'w u).mpr (Or.inl hm))) hf
              obtain ⟨hF1, hE1⟩ := drain_pres gn gd h start st
                (st.searched ++ [current]) k0 current bucketRest heapRest hF
                hheap hbk hE' ((hS'w current).mpr (Or.inr rfl))
              have hF3 : AFront gn gd h start
                  { st with
                    to_search := pm_drain_min st.to_search k0 bucketRest
                    callbackLog := st.callbackLog ++ [current]
                    neighborLog := st.neighborLog ++ [current] } :=
                ⟨hF1.hsorted, hF1.hheapnd, hF1.hkeysnd, hF1.hsync,
                  hF1.hkeyLB, hF1.hkeyfin, hF1.hcost0, hF1.hcostnn,
                  hF1.hprev, hF1.hchain⟩
              have hnbs : ∀ x ∈ (pset.ofList (gn current)).filter
                  (fun n => decide (n ∉ st.searched)),
                  x ∈ gn current ∧ x ∉ st.searched := by
                intro x hx
                rw [List.mem_filter] at hx
                refine ⟨(pset.mem_ofList _ x).mp hx.1, ?_⟩
                simpa using hx.2
              obtain ⟨hF4, hE4, hO4, hR4, hs4, hdec4, hcur4, hbnd4⟩ :=
                foldl_relax_pres gn gd h start current st.searched
                  (st.searched ++ [current]) hd hS'w
                  ((pset.ofList (gn current)).filter
                    (fun n => decide (n ∉ st.searched)))
                  { st with
                    to_search := pm_drain_min st.to_search k0 bucketRest
                    callbackLog := st.callbackLog ++ [current]
                    neighborLog := st.neighborLog ++ [current] }
                  hF3 hE1 hO' hR hnbs
              refine ⟨⟨hF4.hsorted, hF4.hheapnd, hF4.hkeysnd, hF4.hsync,
                hF4.hkeyLB, hF4.hkeyfin, hF4.hcost0, hF4.hcostnn,
                hF4.hprev, hF4.hchain⟩, ?_, ?_, ?_⟩
              · intro u hu hfin
                dsimp only at hu hfin ⊢
                rw [hs4] at hu
                exact hE4 u hu hfin
              · intro w hw q hq
                dsimp only at hw ⊢
                rw [hs4] at hw
                exact hO4 w hw q hq
              · intro w hw n hn
                dsimp only at hw ⊢
                rw [hs4] at hw
                dsimp only at hw
                rcases (hS'w w).mp hw with hws | rfl
                · rcases hR4 w hws n hn with hin | hle
                  · refine Or.inl ?_
                    rw [hs4]
                    dsimp only
                    exact (hS'w n).mpr (Or.inl hin)
                  · exact Or.inr hle
                · by_cases hnS : n ∈ st.searched
                  · refine Or.inl ?_
                    rw [hs4]
                    dsimp only
                    exact (hS'w n).mpr (Or.inl hnS)
                  · refine Or.inr ?_
                    refine hbnd4 n ?_
                    rw [List.mem_filter]
                    refine ⟨(pset.mem_ofList _ n).mpr hn, ?_⟩
                    simpa using hnS
            · intro p hp
              simp at hp

/-- The initial `a_star` state satisfies the loop invariant. -/
theorem a_star_init_inv {α K : Type} [DecidableEq α]
    [LinearOrderedCommRing K] (gn : α → List α) (gd : α → α → K)
    (h : α → K) (start : α) :
    AInv gn gd h start (a_star_init h start) := by
  refine ⟨⟨?_, ?_, ?_, ?_, ?_, ?_, ?_, ?_, ?_, ?_⟩, ?_, ?_, ?_⟩
  · exact List.sorted_singleton _
  · exact List.nodup_singleton _
  · exact List.nodup_singleton _
  · intro k'
    by_cases hk : k' = ((h start : K) : WithTop K)
    · subst hk
      simp [a_star_init, prioritymap.setitem, prioritymap.empty, heappush,
        alist.set, alist.lookup]
    · simp [a_star_init, prioritymap.setitem, prioritymap.empty, heappush,
        alist.set, alist.lookup, hk]
  · intro kk b hkb x hx
    by_cases hkk : kk = ((h start : K) : WithTop K)
    · subst hkk
      have hb : [start] = b := by
        simpa [a_star_init, prioritymap.setitem, prioritymap.empty,
          alist.set, alist.lookup] using hkb
      rw [← hb] at hx
      rcases List.mem_singleton.mp hx with rfl
      have hc : alist.findInf (a_star_init h x : AStarState α K).cost x =
          0 := by
        simp [a_star_init, alist.findInf, alist.lookup]
      rw [hc, zero_add]
    · exfalso
      revert hkb
      simp [a_star_init, prioritymap.setitem, prioritymap.empty, alist.set,
        alist.lookup, hkk]
  · intro kk hkm
    have : kk = ((h start : K) : WithTop K) := by
      simpa [a_star_init, prioritymap.setitem, prioritymap.empty,
        heappush] using hkm
    rw [this]
    exact WithTop.coe_ne_top
  · simp [a_star_init, alist.findInf, alist.lookup]
  · intro u
    by_cases hu : u = start
    · subst hu
      simp [a_star_init, alist.findInf, alist.lookup]
    · have : alist.findInf (a_star_init h start : AStarState α K).cost u =
          ⊤ := by
        simp [a_star_init, alist.findInf, alist.lookup, hu]
      rw [this]
      exact le_top
  · intro u v hl
    exact Option.noConfusion hl
  · intro u hfin
    by_cases hu : u = start
    · subst hu
      refine ⟨[u], rfl, rfl, List.nodup_singleton u, List.chain'_singleton u⟩
    · exfalso
      refine hfin ?_
      simp [a_star_init, alist.findInf, alist.lookup, hu]
  · intro u hu hfin
    by_cases hus : u = start
    · subst hus
      refine ⟨[u], ?_, List.mem_singleton_self u⟩
      have hc : alist.findInf (a_star_init h u : AStarState α K).cost u =
          0 := by
        simp [a_star_init, alist.findInf, alist.lookup]
      rw [hc, zero_add]
      simp [a_star_init, prioritymap.setitem, prioritymap.empty, alist.set,
        alist.lookup]
    · exfalso
      refine hfin ?_
      simp [a_star_init, alist.findInf, alist.lookup, hus]
  · intro w hw
    simp [a_star_init] at hw
  · intro w hw
    simp [a_star_init] at hw

/-- The fueled `a_star` loop returns only optimal valid paths from invariant
states. -/
theorem a_star_loop_opt {α K : Type} [DecidableEq α] [LinearOrderedCommRing K]
    (gn : α → List α) (gd : α → α → K) (h : α → K) (start target : α)
    (hd : ∀ u v, 0 ≤ gd u v)
    (hcons : ∀ u v, v ∈ gn u → h u ≤ gd u v + h v) :
    ∀ (fuel : ℕ) (st : AStarState α K), AInv gn gd h start st →
      ∀ p, (a_star_loop gn gd h none start target fuel st).1 =
          AStarResult.found p →
        isPath gn start target p = true ∧
        ∀ q, isPath gn start target q = true →
          edgeSum gd p ≤ edgeSum gd q := by
  intro fuel
  induction fuel with
  | zero =>
      intro st _ p hp
      simp [a_star_loop] at hp
  | succ f ih =>
      intro st hinv p hp
      rw [a_star_loop] at hp
      rcases hres : a_star_step gn gd h none start target st with ⟨ro, st2⟩
      rw [hres] at hp
      cases ro with
      | none =>
          dsimp only at hp
          have hinv2 : AInv gn gd h start st2 := by
            have hh := (a_star_step_opt gn gd h start target st hd hcons
              hinv).1
            rw [hres] at hh
            exact hh rfl
          exact ih st2 hinv2 p hp
      | some r =>
          dsimp only at hp
          have hh := (a_star_step_opt gn gd h start target st hd hcons
            hinv).2 p
          rw [hres] at hh
          exact hh (by rw [hp])

set_option maxHeartbeats 1000000 in
/-- C1: for every finite graph, start, goal, non-negative edge costs and
*consistent* heuristic (`h u ≤ d u v + h v` along every edge), with no
`max_cost`, whenever `a_star` returns a path it is a valid path from start
to goal of minimal total edge cost.  (The claim's admissibility hypothesis
is not sufficient: `C1_counterexample` exhibits an admissible but
inconsistent heuristic for which the returned path is suboptimal, because
the `searched` set never re-expands a settled point.) -/
theorem C1_a_star_consistent_optimal {α K : Type} [DecidableEq α]
    [LinearOrderedCommRing K] (start target : α) (gn : α → List α)
    (gd : α → α → K) (h : α → K) (fuel : ℕ) (p : List α)
    (hd : ∀ u v, 0 ≤ gd u v)
    (hcons : ∀ u v, v ∈ gn u → h u ≤ gd u v + h v)
    (hres : (a_star start target gn gd h none fuel).1 =
      AStarResult.found p) :
    isPath gn start target p = true ∧
      ∀ q, isPath gn start target q = true →
        edgeSum gd p ≤ edgeSum gd q := by
  unfold a_star at hres
  exact a_star_loop_opt gn gd h start target hd hcons fuel
    (a_star_init h start) (a_star_init_inv gn gd h start) p hres

/-- Two-point witness instance: `0 → 1`, unit edge costs, zero heuristic. -/
def nbW : ℕ → List ℕ := fun u => if u = 0 then [1] else []

def gdW : ℕ → ℕ → ℤ := fun _ _ => 1

def hW : ℕ → ℤ := fun _ => 0

theorem C1_a_star_consistent_optimal_witness :
    isPath nbW 0 1 [0, 1] = true ∧
      ∀ q, isPath nbW 0 1 q = true → edgeSum gdW [0, 1] ≤ edgeSum gdW q :=
  C1_a_star_consistent_optimal 0 1 nbW gdW hW 3 [0, 1]
    (fun u v => by unfold gdW; decide)
    (fun u v hv => by unfold gdW hW; decide)
    (by decide)
